import Mathlib

/-!
Verification development for the decomp repository: a treewidth-based
weighted-MaxSAT solver.  The Python sources are shallowly embedded below:
pure functions become Lean functions, mutation becomes explicit state
passing, Python assertions become Except error branches, and Python sets
are modelled as Finsets (with ascending iteration order, matching CPython's
iteration order for the small integer sets that arise here).  Machine
integers are modelled by Nat/Int.
-/

/-! ## Generic helpers (not part of the source embedding) -/

/-- Sort a multiset of naturals ascendingly.  Uses insertion sort, which the
kernel can evaluate, lifted over the permutation quotient. -/
def msortAsc (m : Multiset ℕ) : List ℕ :=
  Quot.liftOn m (List.insertionSort (· ≤ ·)) (fun a b h => by
    refine List.eq_of_perm_of_sorted (r := fun x y : ℕ => x ≤ y) ?_ ?_ ?_
    · exact (List.perm_insertionSort _ a).trans
        ((Quotient.exact (Quot.sound h)).trans (List.perm_insertionSort _ b).symm)
    · exact List.sorted_insertionSort _ a
    · exact List.sorted_insertionSort _ b)

/-- The ascending list of elements of a finite set of naturals; this models
iteration over a CPython set of small non-negative integers. -/
def sortFin (s : Finset ℕ) : List ℕ := msortAsc s.val

instance {ε α : Type} [DecidableEq ε] [DecidableEq α] : DecidableEq (Except ε α) := fun a b =>
  match a, b with
  | .ok x, .ok y => if h : x = y then .isTrue (by rw [h]) else .isFalse (by simp [h])
  | .error x, .error y => if h : x = y then .isTrue (by rw [h]) else .isFalse (by simp [h])
  | .ok _, .error _ => .isFalse (by simp)
  | .error _, .ok _ => .isFalse (by simp)

/-- Whether an Except value is a success. -/
def Except.okB {ε α : Type} : Except ε α → Bool
  | .ok _ => true
  | .error _ => false

/-- The number whose binary representation is the given list of bits, first
list element most significant. -/
def bitsOfList (l : List Bool) : ℕ := l.foldl (fun b x => 2 * b + cond x 1 0) 0

/-! ## dp.py: delete_bit and Assignment -/

/-- dp.py delete_bit: deletes the i-th bit (counting from the right, 0-based). -/
def delete_bit (bits i : ℕ) : ℕ :=
  ((bits >>> (i + 1)) <<< i) ||| (bits &&& ((1 <<< i) - 1))

/-- dp.py Assignment: an ordered list of variables together with a bit vector
(first variable is the leftmost, i.e. most significant, bit). -/
structure Assignment where
  vars : List ℕ
  bits : ℕ
deriving DecidableEq, Repr

/-- Position of a variable counted from the right end of the list, as stored in
Assignment.index_of (a Python dict comprehension in which a later duplicate
overwrites an earlier one, hence the last occurrence wins).  Absent variables
get the (out of range) value l.length, modelling the dict KeyError boundary. -/
def indexOfR : List ℕ → ℕ → ℕ
  | [], _ => 0
  | x :: xs, v => if v ∈ xs then indexOfR xs v else if x = v then xs.length else xs.length + 1

/-- dp.py Assignment.index_of lookup. -/
def Assignment.index_of (a : Assignment) (v : ℕ) : ℕ := indexOfR a.vars v

/-- dp.py Assignment.bit: the bit with the given index, counted from the right. -/
def Assignment.bit (a : Assignment) (index : ℕ) : Bool := a.bits.testBit index

/-- dp.py Assignment.__getitem__ (the assertion that the key occurs among the
variables holds at every call site of the embedded code). -/
def Assignment.getVal (a : Assignment) (v : ℕ) : Bool := a.bit (a.index_of v)

/-- dp.py Assignment.consistent. -/
def Assignment.consistent (a other : Assignment) : Bool :=
  (a.vars.filter (fun v => v ∈ other.vars)).all
    (fun v => a.getVal v == other.getVal v)

/-- dp.py Assignment.restrict: project onto the given variables, ignoring the
ones that are not present. -/
def Assignment.restrict (a : Assignment) (vs : List ℕ) : Assignment :=
  let indices := (vs.filter (fun v => v ∈ a.vars)).map a.index_of
  ⟨vs, indices.foldl (fun bits index => (bits <<< 1) ||| (cond (a.bit index) 1 0)) 0⟩

/-- dp.py Assignment.extend_disjoint (the disjointness assertion is checked
separately, at the call site inside Table.compute). -/
def Assignment.extend_disjoint (a : Assignment) (new_vars : List ℕ) (new_bits : ℕ) :
    Assignment :=
  ⟨a.vars ++ new_vars, (a.bits <<< new_vars.length) ||| new_bits⟩

/-- The duplicate-elimination loop of dp.py Assignment.combine: walk the
concatenated variable list; i (the right-based index of the current variable)
equals the length of the remaining suffix; a repeated variable's bit is
removed with delete_bit. -/
def combineGo : List ℕ → ℕ → List ℕ → List ℕ × ℕ
  | [], bits, _ => ([], bits)
  | v :: rest, bits, seen =>
    if v ∈ seen then combineGo rest (delete_bit bits rest.length) seen
    else
      let p := combineGo rest bits (v :: seen)
      (v :: p.1, p.2)

/-- dp.py Assignment.combine (the pairwise-consistency assertion is checked
separately, at the call site inside Table.compute). -/
def Assignment.combine (assignments : List Assignment) : Assignment :=
  match assignments with
  | [] => ⟨[], 0⟩
  | _ =>
    let combined_vars := assignments.flatMap (fun a => a.vars)
    let combined_bits :=
      assignments.foldl (fun bits a => (bits <<< a.vars.length) ||| a.bits) 0
    let p := combineGo combined_vars combined_bits []
    ⟨p.1, p.2⟩

/-- The pairwise-consistency assertion of Assignment.combine, over all
unordered pairs (itertools.combinations). -/
def allPairsConsistent : List Assignment → Bool
  | [] => true
  | a :: rest => rest.all (fun b => a.consistent b) && allPairsConsistent rest

/-- Structural well-formedness of every assignment the embedded DP code
constructs: distinct variables and no bits beyond the variable count. -/
def Assignment.WF (a : Assignment) : Prop :=
  a.vars.Nodup ∧ a.bits < 2 ^ a.vars.length

/-- Keep-first duplicate elimination on a variable list, with an accumulator of
already seen variables; the variable-list part of the combineGo computation. -/
def dedupF : List ℕ → List ℕ → List ℕ
  | [], _ => []
  | v :: rest, seen =>
    if v ∈ seen then dedupF rest seen else v :: dedupF rest (v :: seen)

/-- Keep-first duplicate elimination acting on the bit list in lockstep with
dedupF; the bit-vector part of the combineGo computation. -/
def dedupBL : List ℕ → List Bool → List ℕ → List Bool
  | v :: rest, b :: bs, seen =>
    if v ∈ seen then dedupBL rest bs seen else b :: dedupBL rest bs (v :: seen)
  | _, _, _ => []

/-! ## graph.py: Graph and the two elimination heuristics -/

/-- graph.py Graph: vertex set plus adjacency.  The neighbors dict is
modelled as a total function; entries of removed vertices are reset to ∅
(the Python dict deletes them and the embedded code never reads them). -/
structure Graph where
  num_vertices : ℕ
  vertices : Finset ℕ
  neighbors : ℕ → Finset ℕ

/-- graph.py Graph.__init__ (the td-building fields bags_containing and
td_roots live on the Decomposer in the embedded decomposer.py version). -/
def Graph.init (n : ℕ) : Graph :=
  ⟨n, Finset.Icc 1 n, fun _ => ∅⟩

/-- graph.py Graph.add_edge (its assertions x ∈ vertices, y ∈ vertices,
x ≠ y hold at every embedded call site). -/
def Graph.add_edge (g : Graph) (x y : ℕ) : Graph :=
  { g with neighbors := fun z =>
      if z = x then insert y (g.neighbors x)
      else if z = y then insert x (g.neighbors y)
      else g.neighbors z }

/-- graph.py Graph.remove_vertex. -/
def Graph.remove_vertex (g : Graph) (v : ℕ) : Graph :=
  { num_vertices := g.num_vertices - 1
    vertices := g.vertices.erase v
    neighbors := fun z =>
      if z = v then ∅
      else if z ∈ g.neighbors v then (g.neighbors z).erase v
      else g.neighbors z }

/-- graph.py Graph.neighborhood: the closed neighborhood. -/
def Graph.neighborhood (g : Graph) (v : ℕ) : Finset ℕ := insert v (g.neighbors v)

/-- The width-bound test of both heuristics.  In Python it reads
(not max_width or d <= max_width), so a bound of None or 0 admits every
vertex. -/
def widthOk (max_width : Option ℕ) (d : ℕ) : Bool :=
  match max_width with
  | none => true
  | some w => if w = 0 then true else decide (d ≤ w)

/-- One step of the running-minimum loop shared by both heuristics: accept v
when the width test passes and its value is strictly below the current
minimum. -/
def minFoldStep (ok : ℕ → Bool) (f : ℕ → ℕ) (p : Option ℕ × ℕ) (v : ℕ) :
    Option ℕ × ℕ :=
  if ok v then (if f v < p.2 then (some v, f v) else p) else p

/-- graph.py Graph.min_degree_vertex; the vertex set is iterated in ascending
order and ties keep the earlier vertex (strict comparison). -/
def Graph.min_degree_vertex (g : Graph) (max_width : Option ℕ) : Option ℕ :=
  ((sortFin g.vertices).foldl
    (minFoldStep (fun v => widthOk max_width ((g.neighborhood v).card - 1))
      (fun v => (g.neighbors v).card))
    (none, g.num_vertices)).1

/-- graph.py Graph.num_unconnected_neighbor_pairs. -/
def Graph.num_unconnected_neighbor_pairs (g : Graph) (v : ℕ) : ℕ :=
  (((g.neighbors v) ×ˢ (g.neighbors v)).filter
    (fun p => p.1 < p.2 ∧ p.2 ∉ g.neighbors p.1)).card

/-- graph.py Graph.min_fill_vertex. -/
def Graph.min_fill_vertex (g : Graph) (max_width : Option ℕ) : Option ℕ :=
  ((sortFin g.vertices).foldl
    (minFoldStep (fun v => widthOk max_width ((g.neighborhood v).card - 1))
      (fun v => g.num_unconnected_neighbor_pairs v))
    (none, g.num_vertices * g.num_vertices)).1

/-- The invariants of a graph object that the embedded code relies on: the
vertex counter is the cardinality of the vertex set, adjacency stays inside
the vertex set, and there are no self-loops. -/
def Graph.WFg (g : Graph) : Prop :=
  g.num_vertices = g.vertices.card ∧
  (∀ v, g.neighbors v ⊆ g.vertices) ∧
  (∀ v, v ∉ g.neighbors v)

/-! ## td.py: the tree-decomposition data structure and its transforms -/

/-- td.py TD: a tree-decomposition node.  The parent pointer is only a
back-reference in Python (equality ignores it), so the functional model keeps
just the bag and the ordered children list. -/
inductive TD where
  | mk (node : Finset ℕ) (children : List TD)

/-- Bag of a TD node (the Python attribute is called node). -/
def TD.node : TD → Finset ℕ
  | .mk b _ => b

/-- Ordered children list of a TD node. -/
def TD.children : TD → List TD
  | .mk _ cs => cs

mutual
/-- Number of nodes of a TD (used for recursion fuel). -/
def TD.size : TD → ℕ
  | .mk _ cs => 1 + TD.sizeL cs
/-- Total number of nodes of a list of TDs. -/
def TD.sizeL : List TD → ℕ
  | [] => 0
  | c :: cs => TD.size c + TD.sizeL cs
end

/-- Union of the bags of a list of TD nodes (frozenset.union semantics). -/
def unionBags (l : List TD) : Finset ℕ :=
  l.foldl (fun acc c => acc ∪ c.node) ∅

/-- td.py TD.introduced: bag minus the union of the children's bags (the
whole bag at a leaf). -/
def TD.introduced (t : TD) : Finset ℕ :=
  if t.children.isEmpty then t.node else t.node \ unionBags t.children

/-- td.py TD.shared: for each child, the list of bag elements also present in
that child, in the (ascending) iteration order of the bag. -/
def TD.shared (t : TD) : List (List ℕ) :=
  t.children.map (fun c => (sortFin t.node).filter (fun x => x ∈ c.node))

mutual
/-- td.py TD.width: size of the largest bag minus one. -/
def TD.width : TD → ℤ
  | .mk b cs => TD.widthL cs ((b.card : ℤ) - 1)
/-- Running maximum of widths over a list of TDs. -/
def TD.widthL : List TD → ℤ → ℤ
  | [], m => m
  | c :: cs, m => TD.widthL cs (max m (TD.width c))
end

mutual
/-- td.py TD.union_of_bags: union of every bag in the subtree. -/
def TD.union_of_bags : TD → Finset ℕ
  | .mk b cs => b ∪ TD.unionL cs
/-- Union of all bags of a list of subtrees. -/
def TD.unionL : List TD → Finset ℕ
  | [] => ∅
  | c :: cs => TD.union_of_bags c ∪ TD.unionL cs
end

/-- td.py TD.add_child (the child's parent pointer has no functional
counterpart). -/
def TD.add_child (t c : TD) : TD := TD.mk t.node (t.children ++ [c])

/-- The loop of td.py TD.remove_subset_children, fuelled.  Python iterates
over self.children while add_child appends adopted grandchildren to the very
list being iterated, so the worklist semantics is: a subset child is dropped
and its children are appended to the end of the worklist; a kept child is
recursively processed.  Fuel 2 * total size + 1 always suffices; on fuel
exhaustion the remaining worklist is returned unchanged. -/
def rscChildren : ℕ → Finset ℕ → List TD → List TD
  | 0, _, ws => ws
  | _ + 1, _, [] => []
  | n + 1, bag, c :: rest =>
    if c.node ⊆ bag then rscChildren n bag (rest ++ c.children)
    else TD.mk c.node (rscChildren n c.node c.children) :: rscChildren n bag rest

/-- td.py TD.remove_subset_children (recursive, functional). -/
def TD.remove_subset_children (t : TD) : TD :=
  TD.mk t.node (rscChildren (2 * TD.sizeL t.children + 1) t.node t.children)

/-- Finds the first child whose bag is a superset of the given bag, returning
it together with the remaining children in order (td.py identifies the other
children by object identity; positions model that faithfully). -/
def extractSuperset : Finset ℕ → List TD → Option (TD × List TD)
  | _, [] => none
  | bag, c :: rest =>
    if bag ⊆ c.node then some (c, rest)
    else
      match extractSuperset bag rest with
      | some p => some (p.1, c :: p.2)
      | none => none

/-- td.py TD.move_superset_children, fuelled.  A rotation replaces the node
by its first superset child, which adopts the node's other children after its
own, and recursion continues on the rotated tree; otherwise the transform
recurses into all children.  Fuel = tree size always suffices. -/
def mscGo : ℕ → TD → TD
  | 0, t => t
  | n + 1, t =>
    match extractSuperset t.node t.children with
    | some p => mscGo n (TD.mk p.1.node (p.1.children ++ p.2))
    | none => TD.mk t.node (t.children.map (mscGo n))

/-- td.py TD.move_superset_children (returns the new subtree root). -/
def TD.move_superset_children (t : TD) : TD := mscGo (TD.size t) t

mutual
/-- td.py TD.weakly_normalize: after normalizing the children, a node with at
least two children gets a join layer: join_elements is the union of the
children's bags intersected with the own bag; unless that equals the own bag a
fresh join node is inserted; each original child hangs directly under the join
node when its bag equals join_elements and behind a fresh intermediate node
carrying join_elements otherwise. -/
def TD.weakly_normalize : TD → TD
  | .mk bag cs =>
    let cs2 := TD.wnList cs
    if cs2.length ≥ 2 then
      let child_elements := unionBags cs2
      let join_elements := child_elements ∩ bag
      let joinChildren := cs2.map (fun c =>
        if c.node = join_elements then c else TD.mk join_elements [c])
      if join_elements ≠ bag then TD.mk bag [TD.mk join_elements joinChildren]
      else TD.mk bag joinChildren
    else TD.mk bag cs2
/-- weakly_normalize mapped over a children list. -/
def TD.wnList : List TD → List TD
  | [] => []
  | c :: cs => TD.weakly_normalize c :: TD.wnList cs
end

/-! ## decomposer.py: Decomposer -/

/-- decomposer.py Decomposer state: the private working copy of the graph and
the list of current tree roots.  bags_containing is not stored: the parentless
nodes of bags_containing[v] are exactly the roots whose bag contains v, in the
same (creation) order, so eliminate recovers them from td_roots. -/
structure Decomposer where
  graph : Graph
  td_roots : List TD

/-- The fill-edge pair list of Decomposer.eliminate: ordered pairs x < y of
neighbors of the eliminated vertex, iterated ascendingly. -/
def fillPairs (g : Graph) (vertex : ℕ) : List (ℕ × ℕ) :=
  (sortFin (g.neighbors vertex)).flatMap (fun x =>
    ((sortFin (g.neighbors vertex)).filter (fun y => x < y)).map (fun y => (x, y)))

/-- decomposer.py Decomposer.eliminate: bag = closed neighborhood, neighbors
become a clique, the vertex is removed, the parentless nodes containing the
vertex become children of the new node, which is appended as a new root. -/
def Decomposer.eliminate (s : Decomposer) (vertex : ℕ) : Decomposer :=
  let new_bag := s.graph.neighborhood vertex
  let g2 := (fillPairs s.graph vertex).foldl (fun g p => g.add_edge p.1 p.2) s.graph
  let g3 := g2.remove_vertex vertex
  let adopted := s.td_roots.filter (fun t => vertex ∈ t.node)
  let kept := s.td_roots.filter (fun t => vertex ∉ t.node)
  ⟨g3, kept ++ [TD.mk new_bag adopted]⟩

/-- decomposer.py Decomposer.do_eliminations, fuelled: eliminate vertices as
long as the heuristic returns one (Python falsiness: None or vertex 0 stops
the loop).  An absent vertex would raise a KeyError (error branch); fuel
vertices.card + 1 always suffices because each elimination removes a vertex. -/
def Decomposer.do_eliminations (method : Graph → Option ℕ → Option ℕ)
    (max_width : Option ℕ) : ℕ → Decomposer → Except Unit Decomposer
  | 0, _ => .error ()
  | n + 1, s =>
    match method s.graph max_width with
    | none => .ok s
    | some v =>
      if v = 0 then .ok s
      else if v ∈ s.graph.vertices then
        Decomposer.do_eliminations method max_width n (s.eliminate v)
      else .error ()

/-- The chain built by decomposer.py Decomposer.connect_roots: consecutive
roots become child of the previous one (the mutation order makes the first
root the top of the chain). -/
def connectChain : TD → List TD → TD
  | x, [] => x
  | x, y :: rest => x.add_child (connectChain y rest)

/-- decomposer.py Decomposer.connect_roots: connect the parentless nodes that
are disjoint from the remainder; when none qualifies, the roots are left
unchanged. -/
def Decomposer.connect_roots (s : Decomposer) (remainder : Finset ℕ) : Decomposer :=
  let connect := s.td_roots.filter (fun td => td.node ∩ remainder = ∅)
  let ignore := s.td_roots.filter (fun td => ¬ td.node ∩ remainder = ∅)
  match connect with
  | [] => s
  | x :: rest => ⟨s.graph, connectChain x rest :: ignore⟩

/-- decomposer.py Decomposer.decompose with the constructor's default
configuration (normalize is a no-op, minimize_roots unset), returning the
final Decomposer state: eliminate as long as possible, clean every root with
remove_subset_children and move_superset_children, then connect the roots
disjoint from the remaining vertices. -/
def Decomposer.decompose (method : Graph → Option ℕ → Option ℕ)
    (max_width : Option ℕ) (graph : Graph) : Except Unit Decomposer := do
  let s ← Decomposer.do_eliminations method max_width
    (graph.vertices.card + 1) ⟨graph, []⟩
  let s1 : Decomposer := ⟨s.graph, s.td_roots.map TD.remove_subset_children⟩
  let s2 : Decomposer := ⟨s1.graph, s1.td_roots.map TD.move_superset_children⟩
  return s2.connect_roots s2.graph.vertices

/-- decomposer.py Decomposer.remainder: the vertices that have not been
decomposed. -/
def Decomposer.remainder (s : Decomposer) : Finset ℕ := s.graph.vertices

/-- The 6-vertex example graph from decomposer.py's main block, on which
min-fill yields width 3 and min-degree width 4. -/
def exampleGraph6 : Graph :=
  ((((((((((Graph.init 6).add_edge 1 2).add_edge 1 3).add_edge 1 4).add_edge 2 5).add_edge
    2 6).add_edge 3 5).add_edge 3 6).add_edge 4 5).add_edge 4 6).add_edge 5 6

/-! ## formula.py: Literal, Clause, Formula (the parts the DP engine uses) -/

/-- formula.py Literal. -/
structure Literal where
  sign : Bool
  var : ℕ
deriving DecidableEq, Repr

/-- formula.py Clause: a weight and a list of literals (namedtuple equality
is order-sensitive on the literal list). -/
structure Clause where
  weight : ℕ
  literals : List Literal
deriving DecidableEq, Repr

/-- formula.py Clause.variables. -/
def Clause.variables (c : Clause) : List ℕ := c.literals.map (fun l => l.var)

/-- formula.py Clause.falsified: every literal's variable is assigned and
disagrees with the literal's sign. -/
def Clause.falsified (c : Clause) (a : Assignment) : Bool :=
  c.literals.all (fun l => decide (l.var ∈ a.vars) && (a.getVal l.var != l.sign))

/-- formula.py Clause.induced_by. -/
def Clause.induced_by (c : Clause) (vars : Finset ℕ) : Bool :=
  c.literals.all (fun l => decide (l.var ∈ vars))

/-- formula.py Formula: the clause list and the hard-clause weight threshold
from the p-line (parsing itself is outside the embedded core). -/
structure Formula where
  clauses : List Clause
  hard_weight : ℕ

/-- formula.py Formula.induced_clauses. -/
def Formula.induced_clauses (f : Formula) (vars : Finset ℕ) : List Clause :=
  f.clauses.filter (fun c => c.induced_by vars)

/-! ## dp.py: Row and Table -/

/-- dp.py Row.  falsified models the frozenset of locally falsified clauses
as a duplicate-free list (in local-clause order); epts is the list of
extension pointer tuples, each one child row per child table. -/
inductive Row where
  | mk (assignment : Assignment) (falsified : List Clause) (cost : ℤ)
       (epts : List (List Row))

/-- The assignment of a row. -/
def Row.assignment : Row → Assignment
  | .mk a _ _ _ => a

/-- The locally falsified clauses of a row. -/
def Row.falsified : Row → List Clause
  | .mk _ f _ _ => f

/-- The total accumulated cost of a row. -/
def Row.cost : Row → ℤ
  | .mk _ _ c _ => c

/-- The extension pointer tuples of a row. -/
def Row.epts : Row → List (List Row)
  | .mk _ _ _ e => e

/-- dp.py Table.  The per-node static data computed in Table.__init__ plus
the children and the row dictionary (modelled as an insertion-ordered list
with unique assignment keys). -/
inductive Table where
  | mk (local_vars new_vars : List ℕ) (shared_vars : List (List ℕ))
       (local_clauses new_clauses : List Clause) (shared_clauses : List (List Clause))
       (children : List Table) (rows : List Row)

/-- The bag variables of a table, in iteration order. -/
def Table.local_vars : Table → List ℕ
  | .mk lv _ _ _ _ _ _ _ => lv

/-- The introduced variables of a table, in iteration order. -/
def Table.new_vars : Table → List ℕ
  | .mk _ nv _ _ _ _ _ _ => nv

/-- Per child, the variables shared between the node and that child. -/
def Table.shared_vars : Table → List (List ℕ)
  | .mk _ _ sv _ _ _ _ _ => sv

/-- The clauses induced by the node's bag. -/
def Table.local_clauses : Table → List Clause
  | .mk _ _ _ lc _ _ _ _ => lc

/-- The local clauses containing an introduced variable. -/
def Table.new_clauses : Table → List Clause
  | .mk _ _ _ _ nc _ _ _ => nc

/-- Per child, shared clauses.  Because dp.py initializes this field with
[[]] * len(children), every entry aliases one single list; the embedding
reproduces that with List.replicate of the one shared list. -/
def Table.shared_clauses : Table → List (List Clause)
  | .mk _ _ _ _ _ sc _ _ => sc

/-- The child tables. -/
def Table.children : Table → List Table
  | .mk _ _ _ _ _ _ cs _ => cs

/-- The rows of a table, in dict insertion order. -/
def Table.rows : Table → List Row
  | .mk _ _ _ _ _ _ _ rs => rs

/-- The single shared-clause list that all entries of shared_clauses alias:
each non-new local clause is appended once per child whose local clauses
contain it, in local-clause-major order. -/
def sharedAllClauses (new_vars : List ℕ) (children : List Table)
    (local_clauses : List Clause) : List Clause :=
  local_clauses.foldl (fun acc c =>
    if c.variables.any (fun v => decide (v ∈ new_vars)) then acc
    else children.foldl (fun acc2 child =>
      if c ∈ child.local_clauses then acc2 ++ [c] else acc2) acc) []

mutual
/-- dp.py Table.__init__ on a TD node: recursively build the child tables,
compute the local/new/shared clause partition (with the aliased
shared_clauses), and start with an empty row dict. -/
def Table.build (f : Formula) : TD → Table
  | .mk bag cs =>
    let children := Table.buildL f cs
    let new_vars := sortFin (TD.introduced (TD.mk bag cs))
    let local_clauses := f.induced_clauses bag
    Table.mk (sortFin bag) new_vars ((TD.mk bag cs).shared)
      local_clauses
      (local_clauses.filter (fun c => c.variables.any (fun v => decide (v ∈ new_vars))))
      (List.replicate children.length (sharedAllClauses new_vars children local_clauses))
      children []
/-- Table.__init__ mapped over the children of a TD node. -/
def Table.buildL (f : Formula) : List TD → List Table
  | [] => []
  | t :: ts => Table.build f t :: Table.buildL f ts
end

/-- dp.py Table.joinable: with fewer than two rows trivially true, otherwise
all rows must be consistent with the first one. -/
def Table.joinable (_t : Table) (rows : List Row) : Bool :=
  match rows with
  | [] => true
  | r0 :: rest => rest.all (fun r => r.assignment.consistent r0.assignment)

/-- dp.py Table.unsat: every row has strictly positive cost. -/
def Table.unsat (t : Table) : Bool :=
  t.rows.all (fun r => decide (0 < r.cost))

/-- dp.py Table.sat. -/
def Table.sat (t : Table) : Bool := ! t.unsat

/-- dp.py Table.locally_unsat: every row already falsifies some local
clause. -/
def Table.locally_unsat (t : Table) : Bool :=
  t.rows.all (fun r => ! r.falsified.isEmpty)

mutual
/-- dp.py Table.deep_unsat_descendants, as the list of tables the generator
yields, in yield order. -/
def Table.deep_unsat_descendants : Table → List Table
  | .mk lv nv sv lc nc sc cs rs =>
    if (Table.mk lv nv sv lc nc sc cs rs).unsat && cs.all (fun c => c.sat) then
      [Table.mk lv nv sv lc nc sc cs rs]
    else
      (if (Table.mk lv nv sv lc nc sc cs rs).locally_unsat then
        [Table.mk lv nv sv lc nc sc cs rs] else [])
      ++ Table.dudL cs
/-- deep_unsat_descendants concatenated over a list of children. -/
def Table.dudL : List Table → List Table
  | [] => []
  | c :: cs => Table.deep_unsat_descendants c ++ Table.dudL cs
end

mutual
/-- Modelled from the claim sentence for C4 (and spec section 4.6): at a node
that is unsat while every child is sat, yield the node; otherwise, when the
node is locally unsat, yield the node directly and do NOT descend into the
children; only when the node is not locally unsat recurse into the
children. -/
def dudClaim : Table → List Table
  | .mk lv nv sv lc nc sc cs rs =>
    if (Table.mk lv nv sv lc nc sc cs rs).unsat && cs.all (fun c => c.sat) then
      [Table.mk lv nv sv lc nc sc cs rs]
    else if (Table.mk lv nv sv lc nc sc cs rs).locally_unsat then
      [Table.mk lv nv sv lc nc sc cs rs]
    else dudClaimL cs

/-- dudClaim concatenated over a list of children. -/
def dudClaimL : List Table → List Table
  | [] => []
  | c :: cs => dudClaim c ++ dudClaimL cs
end

mutual
/-- Modelled from the amended C4 sentence: at a node that is unsat while
every child is sat, yield exactly that node; otherwise yield the node first
when it is locally unsat, and in either case walk into all children and
concatenate their yields in order. -/
def dudAmended : Table → List Table
  | .mk lv nv sv lc nc sc cs rs =>
    if (Table.mk lv nv sv lc nc sc cs rs).unsat && cs.all (fun c => c.sat) then
      [Table.mk lv nv sv lc nc sc cs rs]
    else if (Table.mk lv nv sv lc nc sc cs rs).locally_unsat then
      Table.mk lv nv sv lc nc sc cs rs :: dudAmendedL cs
    else dudAmendedL cs

/-- dudAmended concatenated over a list of children. -/
def dudAmendedL : List Table → List Table
  | [] => []
  | c :: cs => dudAmended c ++ dudAmendedL cs
end

/-- itertools.product over a list of row lists: all choices of one element
per list, rightmost varying fastest. -/
def listProd : List (List Row) → List (List Row)
  | [] => [[]]
  | l :: ls => l.flatMap (fun x => (listProd ls).map (fun tl => x :: tl))

/-- Assignment.combine together with its pairwise-consistency assertion. -/
def combineE (as : List Assignment) : Except Unit Assignment :=
  if allPairsConsistent as then .ok (Assignment.combine as) else .error ()

/-- Assignment.extend_disjoint together with its disjointness assertion. -/
def extendDisjointE (a : Assignment) (nv : List ℕ) (nb : ℕ) : Except Unit Assignment :=
  if a.vars.all (fun v => decide (v ∉ nv)) then .ok (a.extend_disjoint nv nb)
  else .error ()

/-- Dict lookup self.rows[assignment]: the first row with the given key. -/
def findRow : List Row → Assignment → Option Row
  | [], _ => none
  | r :: rest, a => if r.assignment = a then some r else findRow rest a

/-- In-place update of the row stored under the given key. -/
def updateRow : List Row → Assignment → Row → List Row
  | [], _, _ => []
  | r :: rest, a, r2 => if r.assignment = a then r2 :: rest else r :: updateRow rest a r2

/-- The row-insertion step of dp.py Table.compute: a new key appends a fresh
row with one EPT; a strictly cheaper candidate overwrites falsified set, cost
and EPT list; an equal-cost candidate appends its EPT after asserting the
falsified sets agree; a more expensive candidate is dropped. -/
def insertCand (rows : List Row) (a : Assignment) (fals : List Clause)
    (cost : ℤ) (ept : List Row) : Except Unit (List Row) :=
  match findRow rows a with
  | none => .ok (rows ++ [Row.mk a fals cost [ept]])
  | some r =>
    if cost < r.cost then .ok (updateRow rows a (Row.mk a fals cost [ept]))
    else if cost = r.cost then
      if r.falsified = fals then
        .ok (updateRow rows a (Row.mk a r.falsified r.cost (r.epts ++ [ept])))
      else .error ()
    else .ok rows

/-- The per-EPT body of dp.py Table.compute: skip unjoinable EPTs; otherwise
restrict each child row to the shared variables, combine into the inherited
assignment, compute the forgotten cost, and insert one row candidate per
extension of the introduced variables. -/
def processEpt (t : Table) (rows : List Row) (ept : List Row) :
    Except Unit (List Row) :=
  if t.joinable ept then do
    let restricted := List.zipWith (fun (r : Row) sv => r.assignment.restrict sv)
      ept t.shared_vars
    let inherited ← combineE restricted
    let forgotten := ((ept.zip t.shared_clauses).map (fun p =>
      p.1.cost - ((p.1.falsified.filter (fun c => c ∈ p.2)).map
        (fun c => (c.weight : ℤ))).sum)).sum
    (List.range (2 ^ t.new_vars.length)).foldlM (fun rows bits => do
      let assignment ← extendDisjointE inherited t.new_vars bits
      let falsified := (t.local_clauses.filter (fun c => c.falsified assignment)).dedup
      let cost := forgotten + ((falsified.map (fun c => (c.weight : ℤ))).sum)
      insertCand rows assignment falsified cost ept) rows
  else .ok rows

mutual
/-- Number of nodes of a table tree (recursion fuel for compute). -/
def Table.sizeT : Table → ℕ
  | .mk _ _ _ _ _ _ cs _ => 1 + Table.sizeTL cs
/-- Total number of nodes of a list of table trees. -/
def Table.sizeTL : List Table → ℕ
  | [] => 0
  | c :: cs => Table.sizeT c + Table.sizeTL cs
end

/-- dp.py Table.compute, fuelled: compute all children first, then fold the
EPT product through processEpt starting from the (empty) row dict.  Python
assertions become error branches; fuel = tree size always suffices. -/
def Table.computeF : ℕ → Table → Except Unit Table
  | 0, _ => .error ()
  | n + 1, .mk lv nv sv lc nc sc cs rs => do
    let cs2 ← cs.mapM (Table.computeF n)
    let rows ← (listProd (cs2.map (fun c => c.rows))).foldlM
      (processEpt (Table.mk lv nv sv lc nc sc cs2 rs)) rs
    return Table.mk lv nv sv lc nc sc cs2 rows

/-- dp.py Table.compute. -/
def Table.compute (t : Table) : Except Unit Table := Table.computeF t.sizeT t

/-- Concrete two-soft-unit-clause formula (hard weight 5) used as the C2
counterexample: both rows of its one-bag table get cost 1. -/
def exFormula2 : Formula :=
  ⟨[⟨1, [⟨true, 1⟩]⟩, ⟨1, [⟨false, 1⟩]⟩], 5⟩

/-- One-bag tree decomposition over variable 1. -/
def exTD1 : TD := TD.mk {1} []

/-- Concrete formula for the C3 failing input: one unit clause on variable 1
and one on variable 2. -/
def exFormula3 : Formula :=
  ⟨[⟨1, [⟨true, 1⟩]⟩, ⟨1, [⟨true, 2⟩]⟩], 10⟩

/-- Tree decomposition with root bag {1,2} and children bags {1} and {2}. -/
def exTD3 : TD := TD.mk {1, 2} [TD.mk {1} [], TD.mk {2} []]

/-- Two-node path decomposition over variable 1 (parent and child both bag
{1}), used as the C4 counterexample together with exFormula2's clauses. -/
def exTD4 : TD := TD.mk {1} [TD.mk {1} []]

/-! ## Semantic predicates on tree decompositions (for C1 and C6) -/

/-- The pairwise part of the running-intersection property at one node: the
subtree variable sets of two distinct children may only meet inside the
node's bag. -/
def pairwiseSubCond (bag : Finset ℕ) : List TD → Bool
  | [] => true
  | c :: rest =>
    rest.all (fun d => decide (c.union_of_bags ∩ d.union_of_bags ⊆ bag)) &&
    pairwiseSubCond bag rest

mutual
/-- The running-intersection (tree-decomposition) property of spec section 3
in rooted form: at every node, each child subtree's variables meet the
node's bag only inside that child's bag, and two different child subtrees
share variables only inside the node's bag.  (For a rooted tree this is
equivalent to: for any two bags sharing a variable, every bag on the path
between them contains that variable.) -/
def TD.riOk : TD → Bool
  | .mk b cs =>
    cs.all (fun c => decide (c.union_of_bags ∩ b ⊆ c.node)) &&
    pairwiseSubCond b cs && TD.riOkL cs
/-- riOk over a list of subtrees. -/
def TD.riOkL : List TD → Bool
  | [] => true
  | c :: cs => TD.riOk c && TD.riOkL cs
end

mutual
/-- No child's bag is a subset of its parent's bag, anywhere in the tree. -/
def TD.noSubsetChild : TD → Bool
  | .mk b cs =>
    cs.all (fun c => decide (¬ c.node ⊆ b)) && TD.noSubsetChildL cs
/-- noSubsetChild over a list of subtrees. -/
def TD.noSubsetChildL : List TD → Bool
  | [] => true
  | c :: cs => TD.noSubsetChild c && TD.noSubsetChildL cs
end

mutual
/-- No parent's bag is a subset of a child's bag, anywhere in the tree. -/
def TD.noSupersetChild : TD → Bool
  | .mk b cs =>
    cs.all (fun c => decide (¬ b ⊆ c.node)) && TD.noSupersetChildL cs
/-- noSupersetChild over a list of subtrees. -/
def TD.noSupersetChildL : List TD → Bool
  | [] => true
  | c :: cs => TD.noSupersetChild c && TD.noSupersetChildL cs
end

mutual
/-- All bags of a subtree, root first. -/
def TD.bags : TD → List (Finset ℕ)
  | .mk b cs => b :: TD.bagsL cs
/-- All bags of a list of subtrees. -/
def TD.bagsL : List TD → List (Finset ℕ)
  | [] => []
  | c :: cs => TD.bags c ++ TD.bagsL cs
end

/-- The remove_subset_children worklist at its canonical (always sufficient)
fuel. -/
def rscRun (bag : Finset ℕ) (ws : List TD) : List TD :=
  rscChildren (2 * TD.sizeL ws + 1) bag ws

/-- Modelled from the C1 claim sentence (for comparison with the code): the
total weight of the formula's falsified clauses under an assignment, each
listed clause counted individually. -/
def specFalsifiedWeight (f : Formula) (a : Assignment) : ℤ :=
  ((f.clauses.filter (fun c => c.falsified a)).map (fun c => (c.weight : ℤ))).sum

/-- The formula's variables in first-occurrence order (the domain of a
complete assignment). -/
def Formula.varList (f : Formula) : List ℕ :=
  (f.clauses.flatMap Clause.variables).dedup

/-- Modelled from the C1 claim sentence: the optimum (minimum achievable)
total weight of falsified clauses over all complete assignments of the
formula's variables. -/
def specOptCost (f : Formula) : Option ℤ :=
  ((List.range (2 ^ f.varList.length)).map
    (fun bits => specFalsifiedWeight f ⟨f.varList, bits⟩)).min?

/-- The minimum of cost over all rows of a table. -/
def rootMinCost (t : Table) : Option ℤ := (t.rows.map Row.cost).min?

/-- Concrete formula for the C1 failing input: two identical soft unit
clauses of weight 1 on variable 1 and one soft clause of weight 3 on its
negation, hard weight 10. -/
def exFormulaC1 : Formula :=
  ⟨[⟨1, [⟨true, 1⟩]⟩, ⟨1, [⟨true, 1⟩]⟩, ⟨3, [⟨false, 1⟩]⟩], 10⟩

-- ==================== THEOREMS ====================

theorem msortAsc_coe (l : List ℕ) :
    msortAsc (l : Multiset ℕ) = List.insertionSort (· ≤ ·) l := rfl

theorem msortAsc_sorted (m : Multiset ℕ) : (msortAsc m).Sorted (· ≤ ·) := by
  induction m using Quot.inductionOn with
  | h l => exact List.sorted_insertionSort _ l

theorem msortAsc_perm (m : Multiset ℕ) : (msortAsc m : Multiset ℕ) = m := by
  induction m using Quot.inductionOn with
  | h l => exact Quot.sound (List.perm_insertionSort _ l)

theorem mem_sortFin {s : Finset ℕ} {a : ℕ} : a ∈ sortFin s ↔ a ∈ s := by
  have h := msortAsc_perm s.val
  constructor
  · intro ha
    have : a ∈ (msortAsc s.val : Multiset ℕ) := by exact_mod_cast ha
    rw [h] at this
    exact this
  · intro ha
    have : a ∈ s.val := ha
    rw [← h] at this
    exact_mod_cast this

theorem sortFin_nodup (s : Finset ℕ) : (sortFin s).Nodup := by
  have h := msortAsc_perm s.val
  have : (sortFin s : Multiset ℕ).Nodup := by rw [sortFin, h]; exact s.nodup
  exact this

theorem sortFin_sorted (s : Finset ℕ) : (sortFin s).Sorted (· ≤ ·) :=
  msortAsc_sorted s.val

theorem sortFin_toFinset (s : Finset ℕ) : (sortFin s).toFinset = s := by
  ext a
  simp [mem_sortFin]

theorem bitsOfList_append (l : List Bool) (x : Bool) :
    bitsOfList (l ++ [x]) = 2 * bitsOfList l + cond x 1 0 := by
  simp [bitsOfList, List.foldl_append]

theorem bitsOfList_lt (l : List Bool) : bitsOfList l < 2 ^ l.length := by
  induction l using List.reverseRecOn with
  | nil => simp [bitsOfList]
  | append_singleton l x ih =>
    rw [bitsOfList_append]
    simp only [List.length_append, List.length_singleton]
    have : 2 ^ (l.length + 1) = 2 * 2 ^ l.length := by ring
    rw [this]
    cases x <;> simp <;> omega

theorem testBit_bitsOfList (l : List Bool) (i : ℕ) :
    (bitsOfList l).testBit i =
      (decide (i < l.length) && l.getD (l.length - 1 - i) false) := by
  induction l using List.reverseRecOn generalizing i with
  | nil => simp [bitsOfList]
  | append_singleton l x ih =>
    rw [bitsOfList_append]
    cases i with
    | zero =>
      have h0 : (2 * bitsOfList l + cond x 1 0).testBit 0 = x := by
        cases x <;> simp [Nat.testBit_zero] <;> omega
      rw [h0]
      simp only [List.length_append, List.length_singleton]
      have : l.length + 1 - 1 - 0 = l.length := by omega
      rw [this]
      simp [List.getD_append_right l [x] false _ (le_refl l.length)]
    | succ i =>
      have hdiv : (2 * bitsOfList l + cond x 1 0) / 2 = bitsOfList l := by
        cases x <;> simp <;> omega
      rw [Nat.testBit_succ, hdiv, ih]
      simp only [List.length_append, List.length_singleton]
      by_cases hi : i < l.length
      · have h1 : i + 1 < l.length + 1 := by omega
        simp only [decide_eq_true hi, decide_eq_true h1, Bool.true_and]
        have h2 : l.length + 1 - 1 - (i + 1) = l.length - 1 - i := by omega
        rw [h2]
        have h3 : l.length - 1 - i < l.length := by omega
        rw [List.getD_append l [x] false _ h3]
      · have h1 : ¬(i + 1 < l.length + 1) := by omega
        simp [hi, h1]

theorem testBit_bitsOfList_ge (l : List Bool) (i : ℕ) (h : l.length ≤ i) :
    (bitsOfList l).testBit i = false := by
  rw [testBit_bitsOfList]
  simp [Nat.not_lt.mpr h]

theorem shiftLeft_lor_eq_add (x y k : ℕ) (hy : y < 2 ^ k) :
    (x <<< k) ||| y = 2 ^ k * x + y := by
  apply Nat.eq_of_testBit_eq
  intro j
  rw [Nat.testBit_or, Nat.testBit_shiftLeft, Nat.testBit_mul_pow_two_add x hy]
  by_cases hj : j < k
  · have : ¬(j ≥ k) := by omega
    simp [hj, this]
  · have h2 : y.testBit j = false :=
      Nat.testBit_lt_two_pow
        (lt_of_lt_of_le hy (Nat.pow_le_pow_right (by norm_num) (Nat.not_lt.mp hj)))
    have h3 : j ≥ k := Nat.not_lt.mp hj
    simp [hj, h3, h2]

theorem indexOfR_of_not_mem {l : List ℕ} {v : ℕ} (h : v ∉ l) : indexOfR l v = l.length := by
  induction l with
  | nil => rfl
  | cons x xs ih =>
    have hx : x ≠ v := fun he => h (he ▸ List.mem_cons_self x xs)
    have hxs : v ∉ xs := fun he => h (List.mem_cons_of_mem x he)
    simp [indexOfR, hxs, hx]

theorem indexOfR_lt_of_mem {l : List ℕ} {v : ℕ} (h : v ∈ l) : indexOfR l v < l.length := by
  induction l with
  | nil => cases h
  | cons x xs ih =>
    by_cases hm : v ∈ xs
    · have := ih hm
      simp only [indexOfR, hm, if_true]
      simp only [List.length_cons]
      omega
    · have hx : x = v := by
        rcases List.mem_cons.mp h with h1 | h1
        · exact h1.symm
        · exact absurd h1 hm
      simp [indexOfR, hm, hx]

theorem indexOfR_getN {l : List ℕ} (hnd : l.Nodup) {i : ℕ} (h : i < l.length) :
    indexOfR l (l.get ⟨i, h⟩) = l.length - 1 - i := by
  induction l generalizing i with
  | nil => simp at h
  | cons x xs ih =>
    cases i with
    | zero =>
      have hx : x ∉ xs := (List.nodup_cons.mp hnd).1
      simp [indexOfR, hx]
    | succ i =>
      have h2 : i < xs.length := by simpa using h
      have hget : (x :: xs).get ⟨i + 1, h⟩ = xs.get ⟨i, h2⟩ := rfl
      have hmem : xs.get ⟨i, h2⟩ ∈ xs := List.get_mem xs i h2
      have h3 : indexOfR xs (xs.get ⟨i, h2⟩) = xs.length - 1 - i :=
        ih (List.nodup_cons.mp hnd).2 h2
      rw [hget]
      simp only [indexOfR, hmem, if_true, h3, List.length_cons]
      omega

theorem indexOfR_get {l : List ℕ} (hnd : l.Nodup) (i : Fin l.length) :
    indexOfR l (l.get i) = l.length - 1 - i.val := indexOfR_getN hnd i.isLt

theorem getVal_mk_bitsOfList {vs : List ℕ} {bl : List Bool} (hnd : vs.Nodup)
    (hlen : bl.length = vs.length) (i : Fin vs.length) :
    Assignment.getVal ⟨vs, bitsOfList bl⟩ (vs.get i) = bl.getD i.val false := by
  show (bitsOfList bl).testBit (indexOfR vs (vs.get i)) = _
  rw [indexOfR_get hnd i, testBit_bitsOfList]
  have hi := i.isLt
  have h1 : vs.length - 1 - i.val < bl.length := by omega
  have h2 : bl.length - 1 - (vs.length - 1 - i.val) = i.val := by omega
  simp [decide_eq_true h1, h2]

theorem bits_eq_bitsOfList {a : Assignment} (h : a.WF) :
    a.bits = bitsOfList (a.vars.map a.getVal) := by
  apply Nat.eq_of_testBit_eq
  intro j
  rw [testBit_bitsOfList]
  by_cases hj : j < a.vars.length
  · have hlenm : (a.vars.map a.getVal).length = a.vars.length := List.length_map _ _
    have hi : a.vars.length - 1 - j < a.vars.length := by omega
    rw [hlenm]
    have hgd : (a.vars.map a.getVal).getD (a.vars.length - 1 - j) false
        = a.getVal (a.vars.get ⟨a.vars.length - 1 - j, hi⟩) := by
      rw [List.getD_eq_getElem _ _ (by rw [hlenm]; omega : a.vars.length - 1 - j
            < (a.vars.map a.getVal).length)]
      simp
    rw [hgd]
    show a.bits.testBit j = _
    have : a.getVal (a.vars.get ⟨a.vars.length - 1 - j, hi⟩)
        = a.bits.testBit (indexOfR a.vars (a.vars.get ⟨a.vars.length - 1 - j, hi⟩)) := rfl
    rw [this, indexOfR_get h.1]
    have : a.vars.length - 1 - (a.vars.length - 1 - j) = j := by omega
    rw [this]
    simp [decide_eq_true hj]
  · have h1 : a.bits.testBit j = false := by
      refine Nat.testBit_lt_two_pow (lt_of_lt_of_le h.2 ?_)
      exact Nat.pow_le_pow_right (by norm_num) (Nat.not_lt.mp hj)
    rw [h1]
    have h4 : ¬(j < (a.vars.map a.getVal).length) := by
      rw [List.length_map]; exact hj
    simp only [decide_eq_false h4, Bool.false_and]

theorem eq_of_getVal_eq {a b : Assignment} (ha : a.WF) (hb : b.WF) (hv : a.vars = b.vars)
    (h : ∀ v ∈ a.vars, a.getVal v = b.getVal v) : a = b := by
  have hmap : a.vars.map a.getVal = b.vars.map b.getVal := by
    rw [← hv]
    exact List.map_congr_left h
  have hbits : a.bits = b.bits := by
    rw [bits_eq_bitsOfList ha, bits_eq_bitsOfList hb, hmap]
  cases a; cases b
  simp_all

theorem restrict_vars (a : Assignment) (vs : List ℕ) : (a.restrict vs).vars = vs := rfl

theorem restrict_bits {a : Assignment} {vs : List ℕ} (h : ∀ v ∈ vs, v ∈ a.vars) :
    (a.restrict vs).bits = bitsOfList (vs.map a.getVal) := by
  show ((vs.filter (fun v => v ∈ a.vars)).map a.index_of).foldl
      (fun bits index => (bits <<< 1) ||| (cond (a.bit index) 1 0)) 0
    = bitsOfList (vs.map a.getVal)
  have hf : vs.filter (fun v => decide (v ∈ a.vars)) = vs :=
    List.filter_eq_self.mpr (fun v hv => decide_eq_true (h v hv))
  rw [hf, List.foldl_map, bitsOfList, List.foldl_map]
  refine List.foldl_ext _ _ 0 (fun b v _ => ?_)
  have hc : cond (a.bit (a.index_of v)) 1 0 < 2 ^ 1 := by
    cases a.bit (a.index_of v) <;> norm_num
  rw [shiftLeft_lor_eq_add _ _ 1 hc]
  show 2 ^ 1 * b + _ = 2 * b + cond (a.getVal v) 1 0
  rfl

theorem restrict_WF {a : Assignment} {vs : List ℕ} (hnd : vs.Nodup)
    (h : ∀ v ∈ vs, v ∈ a.vars) : (a.restrict vs).WF := by
  refine ⟨hnd, ?_⟩
  rw [restrict_vars, restrict_bits h]
  have := bitsOfList_lt (vs.map a.getVal)
  rwa [List.length_map] at this

theorem getVal_restrict {a : Assignment} {vs : List ℕ} (hnd : vs.Nodup)
    (hsub : ∀ v ∈ vs, v ∈ a.vars) {v : ℕ} (hv : v ∈ vs) :
    (a.restrict vs).getVal v = a.getVal v := by
  rcases List.mem_iff_getElem.mp hv with ⟨i, hi, rfl⟩
  have hr : a.restrict vs = ⟨vs, bitsOfList (vs.map a.getVal)⟩ := by
    have hb := restrict_bits (a := a) hsub
    cases hre : a.restrict vs
    have h1 : vs = (a.restrict vs).vars := (restrict_vars a vs).symm
    rw [hre] at hb h1
    simp at hb h1
    simp [h1, hb]
  rw [hr]
  have := @getVal_mk_bitsOfList vs (vs.map a.getVal) hnd (by simp) ⟨i, hi⟩
  simp only [List.get_eq_getElem] at this
  rw [this, List.getD_eq_getElem _ _ (by simpa using hi)]
  simp

theorem indexOfR_append_of_not_mem_right {xs ys : List ℕ} {v : ℕ} (h : v ∉ ys) :
    indexOfR (xs ++ ys) v = ys.length + indexOfR xs v := by
  induction xs with
  | nil => simp [indexOfR_of_not_mem h, indexOfR]
  | cons x xs ih =>
    by_cases hm : v ∈ xs
    · have hm2 : v ∈ xs ++ ys := List.mem_append.mpr (Or.inl hm)
      simp [indexOfR, hm, hm2, ih]
    · have hm2 : v ∉ xs ++ ys := by
        intro hc
        rcases List.mem_append.mp hc with h1 | h1
        · exact hm h1
        · exact h h1
      by_cases hx : x = v
      · simp [indexOfR, hm, hm2, hx, List.length_append]
        omega
      · simp [indexOfR, hm, hm2, hx, List.length_append]
        omega

theorem indexOfR_append_of_mem_right {xs ys : List ℕ} {v : ℕ} (h : v ∈ ys) :
    indexOfR (xs ++ ys) v = indexOfR ys v := by
  induction xs with
  | nil => rfl
  | cons x xs ih =>
    have hm : v ∈ xs ++ ys := List.mem_append.mpr (Or.inr h)
    simp [indexOfR, hm, ih]

theorem extend_disjoint_vars (a : Assignment) (nv : List ℕ) (nb : ℕ) :
    (a.extend_disjoint nv nb).vars = a.vars ++ nv := rfl

theorem getVal_extend_disjoint_old {a : Assignment} {nv : List ℕ} {nb : ℕ}
    (hWF : a.WF) (hnb : nb < 2 ^ nv.length) {v : ℕ} (hv : v ∈ a.vars) (hnot : v ∉ nv) :
    (a.extend_disjoint nv nb).getVal v = a.getVal v := by
  show ((a.bits <<< nv.length) ||| nb).testBit (indexOfR (a.vars ++ nv) v) = _
  rw [indexOfR_append_of_not_mem_right hnot, Nat.testBit_or, Nat.testBit_shiftLeft]
  have h1 : nb.testBit (nv.length + indexOfR a.vars v) = false := by
    refine Nat.testBit_lt_two_pow (lt_of_lt_of_le hnb ?_)
    exact Nat.pow_le_pow_right (by norm_num) (by omega)
  have h2 : nv.length + indexOfR a.vars v ≥ nv.length := by omega
  have h3 : nv.length + indexOfR a.vars v - nv.length = indexOfR a.vars v := by omega
  simp [h1, h2, h3]
  rfl

theorem getVal_extend_disjoint_new {a : Assignment} {nv : List ℕ} {nb : ℕ}
    {v : ℕ} (hv : v ∈ nv) :
    (a.extend_disjoint nv nb).getVal v = Assignment.getVal ⟨nv, nb⟩ v := by
  show ((a.bits <<< nv.length) ||| nb).testBit (indexOfR (a.vars ++ nv) v) = _
  rw [indexOfR_append_of_mem_right hv, Nat.testBit_or, Nat.testBit_shiftLeft]
  have h2 : ¬(indexOfR nv v ≥ nv.length) := by
    have := indexOfR_lt_of_mem hv
    omega
  simp [h2]
  rfl

theorem extend_disjoint_WF {a : Assignment} {nv : List ℕ} {nb : ℕ}
    (hWF : a.WF) (hnd : nv.Nodup) (hdisj : ∀ v ∈ a.vars, v ∉ nv)
    (hnb : nb < 2 ^ nv.length) : (a.extend_disjoint nv nb).WF := by
  constructor
  · rw [extend_disjoint_vars]
    exact List.Nodup.append hWF.1 hnd hdisj
  · rw [extend_disjoint_vars]
    show (a.bits <<< nv.length) ||| nb < 2 ^ (a.vars ++ nv).length
    rw [shiftLeft_lor_eq_add _ _ _ hnb, List.length_append, pow_add]
    have h1 : a.bits + 1 ≤ 2 ^ a.vars.length := hWF.2
    have h2 : 2 ^ nv.length * a.bits + nb
        < 2 ^ nv.length * a.bits + 2 ^ nv.length := by omega
    calc 2 ^ nv.length * a.bits + nb
        < 2 ^ nv.length * (a.bits + 1) := by ring_nf; omega
      _ ≤ 2 ^ nv.length * 2 ^ a.vars.length := Nat.mul_le_mul_left _ h1
      _ = 2 ^ a.vars.length * 2 ^ nv.length := by ring

/-- C9 counterexample: the claim quantifies over every split of the variable
list into a chosen sublist and its complement.  For the assignment over
variables [1, 2] with bits 1 (that is, 1 false and 2 true), choosing the
sublist [2] with complement [1] (carrying the original bit of variable 1),
restrict followed by extend_disjoint yields the assignment over the variable
list [2, 1], which is not equal to the original: Assignment equality is
order-sensitive on the variable lists. -/
theorem C9_restrict_extend_cex :
    ¬ ((Assignment.mk [1, 2] 1).restrict [2]).extend_disjoint [1]
        (bitsOfList ([1].map (Assignment.mk [1, 2] 1).getVal))
      = Assignment.mk [1, 2] 1 := by decide

/-- C9 amended: restricting a well-formed assignment to a PREFIX of its
variable list and then extending the result with the remaining suffix
variables, carrying their original bits, recovers an assignment equal to the
original.  (For a non-prefix split the recovered variable order differs from
the original and order-sensitive equality fails, as the counterexample
shows.) -/
theorem C9_restrict_extend_recover (a : Assignment) (p s : List ℕ)
    (hWF : a.WF) (hsplit : a.vars = p ++ s) :
    (a.restrict p).extend_disjoint s (bitsOfList (s.map a.getVal)) = a := by
  have hnd : (p ++ s).Nodup := hsplit ▸ hWF.1
  have hp : p.Nodup := (List.nodup_append.mp hnd).1
  have hs : s.Nodup := (List.nodup_append.mp hnd).2.1
  have hdisj : ∀ v ∈ p, v ∉ s := fun v hv => (List.nodup_append.mp hnd).2.2 hv
  have hpsub : ∀ v ∈ p, v ∈ a.vars := fun v hv =>
    hsplit ▸ List.mem_append.mpr (Or.inl hv)
  have hssub : ∀ v ∈ s, v ∈ a.vars := fun v hv =>
    hsplit ▸ List.mem_append.mpr (Or.inr hv)
  have hWFr : (a.restrict p).WF := restrict_WF hp hpsub
  have hnb : bitsOfList (s.map a.getVal) < 2 ^ s.length := by
    have := bitsOfList_lt (s.map a.getVal)
    rwa [List.length_map] at this
  have hWFe : ((a.restrict p).extend_disjoint s (bitsOfList (s.map a.getVal))).WF := by
    refine extend_disjoint_WF hWFr hs ?_ hnb
    rw [restrict_vars]
    exact hdisj
  refine eq_of_getVal_eq hWFe hWF ?_ ?_
  · rw [extend_disjoint_vars, restrict_vars, hsplit]
  · intro v hv
    rw [extend_disjoint_vars, restrict_vars] at hv
    rcases List.mem_append.mp hv with hvp | hvs
    · rw [getVal_extend_disjoint_old hWFr hnb hvp (hdisj v hvp)]
      exact getVal_restrict hp hpsub hvp
    · rw [getVal_extend_disjoint_new hvs]
      rcases List.mem_iff_getElem.mp hvs with ⟨i, hi, rfl⟩
      have hbl : (s.map a.getVal).length = s.length := List.length_map _ _
      have := @getVal_mk_bitsOfList s (s.map a.getVal) hs hbl ⟨i, hi⟩
      simp only [List.get_eq_getElem] at this
      rw [this, List.getD_eq_getElem _ _ (by rw [hbl]; exact hi)]
      simp

/-- C9 witness: the amended round-trip at a concrete assignment and split. -/
theorem C9_witness :
    (Assignment.mk [1, 2, 3] 5).WF ∧
    ((Assignment.mk [1, 2, 3] 5).restrict [1]).extend_disjoint [2, 3]
        (bitsOfList ([2, 3].map (Assignment.mk [1, 2, 3] 5).getVal))
      = Assignment.mk [1, 2, 3] 5 :=
  ⟨⟨by decide, by decide⟩,
    C9_restrict_extend_recover (Assignment.mk [1, 2, 3] 5) [1] [2, 3]
      ⟨by decide, by decide⟩ rfl⟩

theorem widthOk_some_zero (d : ℕ) : widthOk (some 0) d = widthOk none d := by
  simp [widthOk]

theorem minFold_isSome_preserve (ok : ℕ → Bool) (f : ℕ → ℕ) :
    ∀ (l : List ℕ) (acc : Option ℕ × ℕ), acc.1.isSome = true →
      ((l.foldl (minFoldStep ok f) acc).1.isSome = true) := by
  intro l
  induction l with
  | nil => intro acc h; exact h
  | cons x xs ih =>
    intro acc h
    rw [List.foldl_cons]
    refine ih _ ?_
    unfold minFoldStep
    by_cases hok : ok x
    · by_cases hlt : f x < acc.2
      · simp [hok, hlt]
      · simpa [hok, hlt]
    · simpa [hok]

theorem minFold_improving (ok : ℕ → Bool) (f : ℕ → ℕ) :
    ∀ (l : List ℕ) (acc : Option ℕ × ℕ), (∃ v ∈ l, ok v = true ∧ f v < acc.2) →
      ((l.foldl (minFoldStep ok f) acc).1.isSome = true) := by
  intro l
  induction l with
  | nil => rintro acc ⟨v, hv, _⟩; cases hv
  | cons x xs ih =>
    rintro acc ⟨v, hv, hok, hlt⟩
    rw [List.foldl_cons]
    by_cases hokx : ok x
    · by_cases hltx : f x < acc.2
      · refine minFold_isSome_preserve ok f xs _ ?_
        simp [minFoldStep, hokx, hltx]
      · have hacc : minFoldStep ok f acc x = acc := by
          simp [minFoldStep, hokx, hltx]
        rw [hacc]
        rcases List.mem_cons.mp hv with rfl | hv2
        · exact absurd hlt hltx
        · exact ih acc ⟨v, hv2, hok, hlt⟩
    · have hacc : minFoldStep ok f acc x = acc := by
        simp [minFoldStep, hokx]
      rw [hacc]
      rcases List.mem_cons.mp hv with rfl | hv2
      · rw [hok] at hokx; exact absurd rfl hokx
      · exact ih acc ⟨v, hv2, hok, hlt⟩

theorem degree_lt_card {g : Graph} (hWF : g.WFg) {v : ℕ} (hv : v ∈ g.vertices) :
    (g.neighbors v).card < g.vertices.card := by
  have hsub : g.neighbors v ⊆ g.vertices.erase v :=
    Finset.subset_erase.mpr ⟨hWF.2.1 v, hWF.2.2 v⟩
  calc (g.neighbors v).card ≤ (g.vertices.erase v).card := Finset.card_le_card hsub
    _ = g.vertices.card - 1 := Finset.card_erase_of_mem hv
    _ < g.vertices.card := by
        have : 1 ≤ g.vertices.card := Finset.card_pos.mpr ⟨v, hv⟩
        omega

theorem fill_lt_sq {g : Graph} (hWF : g.WFg) {v : ℕ} (hv : v ∈ g.vertices) :
    g.num_unconnected_neighbor_pairs v < g.vertices.card * g.vertices.card := by
  have h1 : g.num_unconnected_neighbor_pairs v
      ≤ ((g.neighbors v) ×ˢ (g.neighbors v)).card :=
    Finset.card_filter_le _ _
  rw [Finset.card_product] at h1
  have h2 := degree_lt_card hWF hv
  have h3 : (g.neighbors v).card * (g.neighbors v).card
      < g.vertices.card * g.vertices.card := by
    have hpos : 0 < g.vertices.card := Finset.card_pos.mpr ⟨v, hv⟩
    exact Nat.mul_lt_mul_of_lt_of_le h2 (le_of_lt h2) hpos
  omega

/-- C10: calling either heuristic with max_width = 0 behaves exactly as with
no width bound, because Python's (not max_width) is true for 0: the bound is
ignored and a vertex is still returned whenever the graph is non-empty. -/
theorem C10_zero_width_ignored (g : Graph) (hWF : g.WFg) :
    g.min_degree_vertex (some 0) = g.min_degree_vertex none ∧
    g.min_fill_vertex (some 0) = g.min_fill_vertex none ∧
    (g.vertices.Nonempty →
      (∃ v, g.min_degree_vertex (some 0) = some v) ∧
      (∃ v, g.min_fill_vertex (some 0) = some v)) := by
  have hfun : (fun v => widthOk (some 0) ((g.neighborhood v).card - 1))
      = (fun v => widthOk none ((g.neighborhood v).card - 1)) :=
    funext (fun v => widthOk_some_zero _)
  refine ⟨?_, ?_, ?_⟩
  · unfold Graph.min_degree_vertex
    rw [hfun]
  · unfold Graph.min_fill_vertex
    rw [hfun]
  · rintro ⟨v, hv⟩
    constructor
    · have h : ((sortFin g.vertices).foldl
          (minFoldStep (fun v => widthOk (some 0) ((g.neighborhood v).card - 1))
            (fun v => (g.neighbors v).card))
          (none, g.num_vertices)).1.isSome = true := by
        refine minFold_improving _ _ _ _ ⟨v, mem_sortFin.mpr hv, rfl, ?_⟩
        show (g.neighbors v).card < g.num_vertices
        rw [hWF.1]
        exact degree_lt_card hWF hv
      rcases Option.isSome_iff_exists.mp h with ⟨w, hw⟩
      exact ⟨w, hw⟩
    · have h : ((sortFin g.vertices).foldl
          (minFoldStep (fun v => widthOk (some 0) ((g.neighborhood v).card - 1))
            (fun v => g.num_unconnected_neighbor_pairs v))
          (none, g.num_vertices * g.num_vertices)).1.isSome = true := by
        refine minFold_improving _ _ _ _ ⟨v, mem_sortFin.mpr hv, rfl, ?_⟩
        show g.num_unconnected_neighbor_pairs v < g.num_vertices * g.num_vertices
        rw [hWF.1]
        exact fill_lt_sq hWF hv
      rcases Option.isSome_iff_exists.mp h with ⟨w, hw⟩
      exact ⟨w, hw⟩

/-- C10 witness: the zero-width-bound behaviour on the concrete two-vertex
graph with the single edge 1-2. -/
theorem C10_witness :
    ((Graph.init 2).add_edge 1 2).min_degree_vertex (some 0)
      = ((Graph.init 2).add_edge 1 2).min_degree_vertex none ∧
    (∃ v, ((Graph.init 2).add_edge 1 2).min_fill_vertex (some 0) = some v) := by
  have hWF : ((Graph.init 2).add_edge 1 2).WFg := by
    refine ⟨by decide, ?_, ?_⟩
    · intro v
      show (if v = 1 then insert 2 (∅ : Finset ℕ)
            else if v = 2 then insert 1 (∅ : Finset ℕ) else ∅) ⊆ Finset.Icc 1 2
      split_ifs <;> decide
    · intro v
      show v ∉ (if v = 1 then insert 2 (∅ : Finset ℕ)
            else if v = 2 then insert 1 (∅ : Finset ℕ) else ∅)
      split_ifs with h1 h2
      · subst h1; decide
      · subst h2; decide
      · simp
  exact ⟨(C10_zero_width_ignored _ hWF).1,
    ((C10_zero_width_ignored _ hWF).2.2 ⟨1, by decide⟩).2⟩

theorem TD.myInd {P : TD → Prop}
    (h : ∀ b cs, (∀ c ∈ cs, P c) → P (TD.mk b cs)) : ∀ t, P t := by
  intro t
  refine @TD.rec P (fun cs => ∀ c ∈ cs, P c) ?_ ?_ ?_ t
  · exact fun b cs ih => h b cs ih
  · exact fun c hc => absurd hc (List.not_mem_nil c)
  · exact fun hd tl iht ihl c hc =>
      (List.mem_cons.mp hc).elim (fun he => by rw [he]; exact iht) (fun h2 => ihl c h2)

theorem wnList_eq_map (cs : List TD) :
    TD.wnList cs = cs.map TD.weakly_normalize := by
  induction cs with
  | nil => rfl
  | cons c cs ih => simp [TD.wnList, ih]

theorem mem_foldl_union {x : ℕ} :
    ∀ (l : List TD) (acc : Finset ℕ),
      (x ∈ l.foldl (fun a c => a ∪ c.node) acc ↔ x ∈ acc ∨ ∃ c ∈ l, x ∈ c.node) := by
  intro l
  induction l with
  | nil => intro acc; simp
  | cons c cs ih =>
    intro acc
    rw [List.foldl_cons, ih]
    simp only [Finset.mem_union, List.mem_cons]
    constructor
    · rintro (⟨h | h⟩ | ⟨d, hd, hx⟩)
      · exact Or.inl h
      · exact Or.inr ⟨c, Or.inl rfl, h⟩
      · exact Or.inr ⟨d, Or.inr hd, hx⟩
    · rintro (h | ⟨d, rfl | hd, hx⟩)
      · exact Or.inl (Or.inl h)
      · exact Or.inl (Or.inr hx)
      · exact Or.inr ⟨d, hd, hx⟩

theorem mem_unionBags {x : ℕ} {l : List TD} :
    x ∈ unionBags l ↔ ∃ c ∈ l, x ∈ c.node := by
  rw [unionBags, mem_foldl_union]
  simp

theorem unionBags_const {l : List TD} {s : Finset ℕ}
    (h : ∀ c ∈ l, c.node = s) (hne : l ≠ []) : unionBags l = s := by
  ext x
  rw [mem_unionBags]
  constructor
  · rintro ⟨c, hc, hx⟩
    rw [h c hc] at hx
    exact hx
  · intro hx
    rcases List.exists_mem_of_ne_nil l hne with ⟨c, hc⟩
    exact ⟨c, hc, (h c hc).symm ▸ hx⟩

theorem wn_mk (bag : Finset ℕ) (cs : List TD) :
    TD.weakly_normalize (TD.mk bag cs) =
      if (TD.wnList cs).length ≥ 2 then
        if unionBags (TD.wnList cs) ∩ bag ≠ bag then
          TD.mk bag [TD.mk (unionBags (TD.wnList cs) ∩ bag)
            ((TD.wnList cs).map (fun c =>
              if c.node = unionBags (TD.wnList cs) ∩ bag then c
              else TD.mk (unionBags (TD.wnList cs) ∩ bag) [c]))]
        else TD.mk bag ((TD.wnList cs).map (fun c =>
              if c.node = unionBags (TD.wnList cs) ∩ bag then c
              else TD.mk (unionBags (TD.wnList cs) ∩ bag) [c]))
      else TD.mk bag (TD.wnList cs) := by
  rw [TD.weakly_normalize]

theorem wn_node_eq (bag : Finset ℕ) (cs : List TD) (hl2 : (TD.wnList cs).length ≥ 2)
    (hall : ∀ c ∈ TD.wnList cs, c.node = unionBags (TD.wnList cs) ∩ bag)
    (heq : unionBags (TD.wnList cs) ∩ bag = bag) :
    TD.weakly_normalize (TD.mk bag cs) = TD.mk bag (TD.wnList cs) := by
  rw [wn_mk, if_pos hl2, if_neg (by simp [heq])]
  congr 1
  have h1 : (TD.wnList cs).map (fun c =>
      if c.node = unionBags (TD.wnList cs) ∩ bag then c
      else TD.mk (unionBags (TD.wnList cs) ∩ bag) [c])
      = (TD.wnList cs).map (fun c => c) :=
    List.map_congr_left (fun c hc => by rw [if_pos (hall c hc)])
  rw [h1]
  exact List.map_id' _

/-- C7: weakly_normalize is idempotent. -/
theorem C7_weakly_normalize_idempotent (t : TD) :
    t.weakly_normalize.weakly_normalize = t.weakly_normalize := by
  induction t using TD.myInd with
  | _ bag cs ih =>
  have hmapfix : ∀ c ∈ TD.wnList cs, TD.weakly_normalize c = c := by
    rw [wnList_eq_map]
    intro c hc
    rcases List.mem_map.mp hc with ⟨d, hd, rfl⟩
    exact ih d hd
  have hwnlist_fix : ∀ (l : List TD), (∀ c ∈ l, TD.weakly_normalize c = c) →
      TD.wnList l = l := by
    intro l hl
    rw [wnList_eq_map]
    exact (List.map_congr_left hl).trans (List.map_id _)
  rw [wn_mk bag cs]
  by_cases hlen : (TD.wnList cs).length ≥ 2
  · rw [if_pos hlen]
    set JE := unionBags (TD.wnList cs) ∩ bag with hJE
    set JCS := (TD.wnList cs).map (fun c =>
        if c.node = JE then c else TD.mk JE [c]) with hJCS
    have hjcs_nodes : ∀ c ∈ JCS, c.node = JE := by
      intro c hc
      rw [hJCS] at hc
      rcases List.mem_map.mp hc with ⟨d, _, rfl⟩
      by_cases hd : d.node = JE
      · rw [if_pos hd]; exact hd
      · rw [if_neg hd]; rfl
    have hjcs_len : JCS.length ≥ 2 := by
      rw [hJCS, List.length_map]; exact hlen
    have hjcs_ne : JCS ≠ [] := by
      intro hc
      rw [hc] at hjcs_len
      simp at hjcs_len
    have hjcs_fixpt : ∀ c ∈ JCS, TD.weakly_normalize c = c := by
      intro c hc
      rw [hJCS] at hc
      rcases List.mem_map.mp hc with ⟨d, hd, rfl⟩
      by_cases hdn : d.node = JE
      · rw [if_pos hdn]
        exact hmapfix d hd
      · rw [if_neg hdn, wn_mk]
        have h1 : TD.wnList [d] = [d] := by
          show TD.weakly_normalize d :: TD.wnList [] = [d]
          rw [hmapfix d hd]; rfl
        rw [h1]
        norm_num
    have hwfix : TD.wnList JCS = JCS := hwnlist_fix _ hjcs_fixpt
    have hunion : unionBags JCS = JE := unionBags_const hjcs_nodes hjcs_ne
    by_cases hne : JE ≠ bag
    · rw [if_pos (by simpa using hne)]
      have h2 : TD.weakly_normalize (TD.mk JE JCS) = TD.mk JE JCS := by
        have := wn_node_eq JE JCS
          (by rw [hwfix]; exact hjcs_len)
          (by rw [hwfix, hunion, Finset.inter_self]; exact hjcs_nodes)
          (by rw [hwfix, hunion, Finset.inter_self])
        rwa [hwfix] at this
      show TD.weakly_normalize (TD.mk bag [TD.mk JE JCS]) = TD.mk bag [TD.mk JE JCS]
      rw [wn_mk]
      have h1 : TD.wnList [TD.mk JE JCS] = [TD.mk JE JCS] := by
        show TD.weakly_normalize (TD.mk JE JCS) :: TD.wnList [] = [TD.mk JE JCS]
        rw [h2]; rfl
      rw [h1]
      norm_num
    · push_neg at hne
      rw [if_neg (by simpa using hne)]
      have := wn_node_eq bag JCS
        (by rw [hwfix]; exact hjcs_len)
        (by rw [hwfix, hunion, hne, Finset.inter_self]; rw [hne] at hjcs_nodes
            exact hjcs_nodes)
        (by rw [hwfix, hunion, hne, Finset.inter_self])
      rwa [hwfix] at this
  · rw [if_neg hlen]
    rw [wn_mk bag (TD.wnList cs), hwnlist_fix _ hmapfix]
    rw [if_neg hlen]

theorem minFold_none (ok : ℕ → Bool) (f : ℕ → ℕ) :
    ∀ (l : List ℕ) (acc : Option ℕ × ℕ), (∀ v ∈ l, ok v = false) →
      l.foldl (minFoldStep ok f) acc = acc := by
  intro l
  induction l with
  | nil => intro acc _; rfl
  | cons x xs ih =>
    intro acc h
    rw [List.foldl_cons]
    have hx : minFoldStep ok f acc x = acc := by
      simp [minFoldStep, h x (List.mem_cons_self x xs)]
    rw [hx]
    exact ih acc (fun v hv => h v (List.mem_cons_of_mem x hv))

theorem method_none_of_zero_progress (method : Graph → Option ℕ → Option ℕ)
    (mw : Option ℕ) (g : Graph)
    (hm : method = Graph.min_degree_vertex ∨ method = Graph.min_fill_vertex)
    (hcase : g.vertices = ∅ ∨
      ∃ w, mw = some w ∧ w ≠ 0 ∧
        ∀ v ∈ g.vertices, ¬((g.neighborhood v).card - 1 ≤ w)) :
    method g mw = none := by
  have hok : ∀ v ∈ sortFin g.vertices,
      widthOk mw ((g.neighborhood v).card - 1) = false := by
    intro v hv
    rcases hcase with hempty | ⟨w, rfl, hw0, hbound⟩
    · rw [hempty] at hv
      have : v ∈ (∅ : Finset ℕ) := mem_sortFin.mp hv
      simp at this
    · have hvv : v ∈ g.vertices := mem_sortFin.mp hv
      simp only [widthOk, if_neg hw0]
      exact decide_eq_false (hbound v hvv)
  rcases hm with rfl | rfl
  · show (List.foldl _ (none, g.num_vertices) (sortFin g.vertices)).1 = none
    rw [minFold_none _ _ _ _ hok]
  · show (List.foldl _ (none, g.num_vertices * g.num_vertices) (sortFin g.vertices)).1 = none
    rw [minFold_none _ _ _ _ hok]

/-- C5: with either heuristic, decompose raises nothing and makes zero
progress gracefully: on an empty graph, and when a (nonzero) width bound is
too small for any vertex to be eliminable, it performs no elimination,
returns an empty root list, and the remainder is the entire original vertex
set. -/
theorem C5_decompose_zero_progress (method : Graph → Option ℕ → Option ℕ)
    (mw : Option ℕ) (g : Graph)
    (hm : method = Graph.min_degree_vertex ∨ method = Graph.min_fill_vertex)
    (hcase : g.vertices = ∅ ∨
      ∃ w, mw = some w ∧ w ≠ 0 ∧
        ∀ v ∈ g.vertices, ¬((g.neighborhood v).card - 1 ≤ w)) :
    Decomposer.decompose method mw g = .ok ⟨g, []⟩ ∧
    Decomposer.remainder ⟨g, []⟩ = g.vertices := by
  have hnone := method_none_of_zero_progress method mw g hm hcase
  constructor
  · unfold Decomposer.decompose
    rw [Decomposer.do_eliminations, hnone]
    simp [Decomposer.connect_roots, List.filter]
  · rfl

/-- C5 witness: zero-progress decomposition on the empty graph and on the
triangle with width bound 1. -/
theorem C5_witness :
    Decomposer.decompose Graph.min_degree_vertex none (Graph.init 0)
      = .ok ⟨Graph.init 0, []⟩ ∧
    Decomposer.decompose Graph.min_fill_vertex (some 1)
        (((Graph.init 3).add_edge 1 2).add_edge 2 3 |>.add_edge 1 3)
      = .ok ⟨((Graph.init 3).add_edge 1 2).add_edge 2 3 |>.add_edge 1 3, []⟩ ∧
    Decomposer.remainder ⟨((Graph.init 3).add_edge 1 2).add_edge 2 3 |>.add_edge 1 3, []⟩
      = (((Graph.init 3).add_edge 1 2).add_edge 2 3 |>.add_edge 1 3).vertices := by
  refine ⟨?_, ?_, ?_⟩
  · exact (C5_decompose_zero_progress _ _ _ (Or.inl rfl) (Or.inl (by decide))).1
  · exact (C5_decompose_zero_progress _ _ _ (Or.inr rfl)
      (Or.inr ⟨1, rfl, by decide, by decide⟩)).1
  · exact (C5_decompose_zero_progress _ _ _ (Or.inr rfl)
      (Or.inr ⟨1, rfl, by decide, by decide⟩)).2

/-- C8: on the documented 6-vertex example graph, decomposition with the
min-fill heuristic yields a single tree decomposition of width 3 and
decomposition with the min-degree heuristic yields width 4. -/
theorem C8_example_widths :
    (Decomposer.decompose Graph.min_fill_vertex none exampleGraph6).map
      (fun s => s.td_roots.map TD.width) = .ok [3] ∧
    (Decomposer.decompose Graph.min_degree_vertex none exampleGraph6).map
      (fun s => s.td_roots.map TD.width) = .ok [4] :=
  ⟨by decide, by decide⟩

/-- C2 counterexample: computing the table of the one-bag decomposition of a
formula with two soft unit clauses of weight 1 and hard weight 5 yields a
table on which unsat() is true although no row's cost reaches the hard
weight, so unsat() is not equivalent to "every row's cost is at least the
hard-clause weight threshold". -/
theorem C2_unsat_cex :
    (Table.compute (Table.build exFormula2 exTD1)).map
      (fun T => (T.unsat,
        decide (∀ r ∈ T.rows, (exFormula2.hard_weight : ℤ) ≤ r.cost)))
      = .ok (true, false) := by decide

/-- C2 amended: Table.unsat is true exactly when every row's cost is
strictly positive (not: at least the hard-clause weight), and Table.sat is
its Boolean negation. -/
theorem C2_unsat_amended (t : Table) :
    (t.unsat = true ↔ ∀ r ∈ t.rows, 0 < r.cost) ∧ t.sat = ! t.unsat := by
  constructor
  · rw [Table.unsat, List.all_eq_true]
    constructor
    · intro h r hr
      exact of_decide_eq_true (h r hr)
    · intro h r hr
      exact decide_eq_true (h r hr)
  · rfl

/-- C3: evaluating Table.build at the failing input exhibits the
[[]] * len(children) aliasing: with root bag {1,2} over children bags {1}
and {2}, both shared_clauses entries are the same list holding BOTH unit
clauses, although the clause on variable 2 is not induced by child 0's bag
and the clause on variable 1 is not induced by child 1's bag (the children's
own induced clause lists are [[clause on 1]] and [[clause on 2]]). -/
theorem C3_shared_clauses_aliasing :
    (Table.build exFormula3 exTD3).shared_clauses
      = [[⟨1, [⟨true, 1⟩]⟩, ⟨1, [⟨true, 2⟩]⟩],
         [⟨1, [⟨true, 1⟩]⟩, ⟨1, [⟨true, 2⟩]⟩]] ∧
    ((Table.build exFormula3 exTD3).children.map Table.local_clauses)
      = [[⟨1, [⟨true, 1⟩]⟩], [⟨1, [⟨true, 2⟩]⟩]] ∧
    ¬ (Clause.induced_by ⟨1, [⟨true, 2⟩]⟩ ({1} : Finset ℕ) = true) ∧
    ¬ (Clause.induced_by ⟨1, [⟨true, 1⟩]⟩ ({2} : Finset ℕ) = true) := by decide

/-- C4 counterexample: on the computed two-node table tree (both bags {1},
the formula forcing every row cost positive and every row locally
falsifying), the generator yields two tables (the root AND its child) while
the claim's no-descend reading yields only one, so the claim's description of
the control flow is false on the code. -/
theorem C4_dud_cex :
    (Table.compute (Table.build exFormula2 exTD4)).map
      (fun T => ((T.deep_unsat_descendants).length, (dudClaim T).length))
      = .ok (2, 1) := by decide

theorem Table.tblInd {P : Table → Prop}
    (h : ∀ lv nv sv lc nc sc cs rs, (∀ c ∈ cs, P c) →
      P (Table.mk lv nv sv lc nc sc cs rs)) : ∀ t, P t := by
  intro t
  refine @Table.rec P (fun cs => ∀ c ∈ cs, P c) ?_ ?_ ?_ t
  · exact fun lv nv sv lc nc sc cs rs ih => h lv nv sv lc nc sc cs rs ih
  · exact fun c hc => absurd hc (List.not_mem_nil c)
  · exact fun hd tl iht ihl c hc =>
      (List.mem_cons.mp hc).elim (fun he => by rw [he]; exact iht) (fun h2 => ihl c h2)

theorem dudL_eq_amendedL (cs : List Table)
    (h : ∀ c ∈ cs, c.deep_unsat_descendants = dudAmended c) :
    Table.dudL cs = dudAmendedL cs := by
  induction cs with
  | nil => rfl
  | cons c cs ih =>
    show c.deep_unsat_descendants ++ Table.dudL cs = dudAmended c ++ dudAmendedL cs
    rw [h c (List.mem_cons_self c cs), ih (fun d hd => h d (List.mem_cons_of_mem c hd))]

/-- C4 amended: deep_unsat_descendants yields a node that is unsat while all
its children are sat; otherwise it yields the node first when the node is
locally unsat, and in either case it RECURSES INTO ALL CHILDREN (it does
descend below a locally unsat node), concatenating the children's yields in
order. -/
theorem C4_dud_amended (t : Table) : t.deep_unsat_descendants = dudAmended t := by
  induction t using Table.tblInd with
  | _ lv nv sv lc nc sc cs rs ih =>
  have hL : Table.dudL cs = dudAmendedL cs := dudL_eq_amendedL cs ih
  show (if (Table.mk lv nv sv lc nc sc cs rs).unsat && cs.all (fun c => c.sat) then
      [Table.mk lv nv sv lc nc sc cs rs]
    else
      (if (Table.mk lv nv sv lc nc sc cs rs).locally_unsat then
        [Table.mk lv nv sv lc nc sc cs rs] else [])
      ++ Table.dudL cs) = _
  by_cases h1 : ((Table.mk lv nv sv lc nc sc cs rs).unsat
      && cs.all (fun c => c.sat)) = true
  · rw [if_pos h1]
    show _ = (if _ then _ else _)
    rw [if_pos h1]
  · rw [if_neg h1]
    by_cases h2 : (Table.mk lv nv sv lc nc sc cs rs).locally_unsat = true
    · rw [if_pos h2, hL]
      show _ = (if _ then _ else _)
      rw [if_neg h1, if_pos h2]
      rfl
    · rw [if_neg h2, hL]
      show _ = (if _ then _ else _)
      rw [if_neg h1, if_neg h2]
      rfl

theorem unionL_cons (c : TD) (cs : List TD) :
    TD.unionL (c :: cs) = c.union_of_bags ∪ TD.unionL cs := rfl

theorem unionL_append (l1 l2 : List TD) :
    TD.unionL (l1 ++ l2) = TD.unionL l1 ∪ TD.unionL l2 := by
  induction l1 with
  | nil => simp [TD.unionL]
  | cons c cs ih => simp [TD.unionL, ih, Finset.union_assoc]

theorem mem_unionL {x : ℕ} : ∀ {l : List TD},
    x ∈ TD.unionL l ↔ ∃ c ∈ l, x ∈ c.union_of_bags := by
  intro l
  induction l with
  | nil => simp [TD.unionL]
  | cons c cs ih =>
    rw [unionL_cons]
    simp only [Finset.mem_union, ih, List.mem_cons]
    constructor
    · rintro (h | ⟨d, hd, hx⟩)
      · exact ⟨c, Or.inl rfl, h⟩
      · exact ⟨d, Or.inr hd, hx⟩
    · rintro ⟨d, rfl | hd, hx⟩
      · exact Or.inl hx
      · exact Or.inr ⟨d, hd, hx⟩

theorem subVars_mk (b : Finset ℕ) (cs : List TD) :
    (TD.mk b cs).union_of_bags = b ∪ TD.unionL cs := rfl

theorem node_subset_subVars (t : TD) : t.node ⊆ t.union_of_bags := by
  cases t with
  | mk b cs => exact Finset.subset_union_left

theorem subVars_of_mem {c : TD} {l : List TD} (h : c ∈ l) :
    c.union_of_bags ⊆ TD.unionL l := by
  induction l with
  | nil => cases h
  | cons d ds ih =>
    rw [unionL_cons]
    rcases List.mem_cons.mp h with rfl | h2
    · exact Finset.subset_union_left
    · exact (ih h2).trans Finset.subset_union_right

theorem child_subVars {c t : TD} (h : c ∈ t.children) :
    c.union_of_bags ⊆ t.union_of_bags := by
  cases t with
  | mk b cs => exact (subVars_of_mem h).trans Finset.subset_union_right

theorem unionL_subset_of_forall {l : List TD} {X : Finset ℕ}
    (h : ∀ c ∈ l, c.union_of_bags ⊆ X) : TD.unionL l ⊆ X := by
  intro x hx
  rcases mem_unionL.mp hx with ⟨c, hc, hxc⟩
  exact h c hc hxc

theorem pairwiseSubCond_iff {bag : Finset ℕ} : ∀ {cs : List TD},
    pairwiseSubCond bag cs = true ↔
      List.Pairwise (fun c d => c.union_of_bags ∩ d.union_of_bags ⊆ bag) cs := by
  intro cs
  induction cs with
  | nil => simp [pairwiseSubCond]
  | cons c rest ih =>
    simp only [pairwiseSubCond, Bool.and_eq_true, List.all_eq_true,
      decide_eq_true_eq, ih, List.pairwise_cons]

theorem riOkL_iff : ∀ {cs : List TD},
    TD.riOkL cs = true ↔ ∀ c ∈ cs, c.riOk = true := by
  intro cs
  induction cs with
  | nil => simp [TD.riOkL]
  | cons c rest ih =>
    rw [TD.riOkL, Bool.and_eq_true, ih]
    constructor
    · rintro ⟨h1, h2⟩ d hd
      rcases List.mem_cons.mp hd with rfl | hd2
      · exact h1
      · exact h2 d hd2
    · intro h
      exact ⟨h c (List.mem_cons_self c rest),
        fun d hd => h d (List.mem_cons_of_mem c hd)⟩

theorem riOk_mk_iff {b : Finset ℕ} {cs : List TD} :
    (TD.mk b cs).riOk = true ↔
      (∀ c ∈ cs, c.union_of_bags ∩ b ⊆ c.node) ∧
      List.Pairwise (fun c d => c.union_of_bags ∩ d.union_of_bags ⊆ b) cs ∧
      (∀ c ∈ cs, c.riOk = true) := by
  rw [TD.riOk, Bool.and_eq_true, Bool.and_eq_true, riOkL_iff, pairwiseSubCond_iff]
  simp only [List.all_eq_true, decide_eq_true_eq]
  tauto

theorem noSubsetChildL_iff : ∀ {cs : List TD},
    TD.noSubsetChildL cs = true ↔ ∀ c ∈ cs, c.noSubsetChild = true := by
  intro cs
  induction cs with
  | nil => simp [TD.noSubsetChildL]
  | cons c rest ih =>
    rw [TD.noSubsetChildL, Bool.and_eq_true, ih]
    constructor
    · rintro ⟨h1, h2⟩ d hd
      rcases List.mem_cons.mp hd with rfl | hd2
      · exact h1
      · exact h2 d hd2
    · intro h
      exact ⟨h c (List.mem_cons_self c rest),
        fun d hd => h d (List.mem_cons_of_mem c hd)⟩

theorem noSubsetChild_mk_iff {b : Finset ℕ} {cs : List TD} :
    (TD.mk b cs).noSubsetChild = true ↔
      (∀ c ∈ cs, ¬ c.node ⊆ b) ∧ (∀ c ∈ cs, c.noSubsetChild = true) := by
  rw [TD.noSubsetChild, Bool.and_eq_true, noSubsetChildL_iff]
  simp only [List.all_eq_true, decide_eq_true_eq]

theorem noSupersetChildL_iff : ∀ {cs : List TD},
    TD.noSupersetChildL cs = true ↔ ∀ c ∈ cs, c.noSupersetChild = true := by
  intro cs
  induction cs with
  | nil => simp [TD.noSupersetChildL]
  | cons c rest ih =>
    rw [TD.noSupersetChildL, Bool.and_eq_true, ih]
    constructor
    · rintro ⟨h1, h2⟩ d hd
      rcases List.mem_cons.mp hd with rfl | hd2
      · exact h1
      · exact h2 d hd2
    · intro h
      exact ⟨h c (List.mem_cons_self c rest),
        fun d hd => h d (List.mem_cons_of_mem c hd)⟩

theorem noSupersetChild_mk_iff {b : Finset ℕ} {cs : List TD} :
    (TD.mk b cs).noSupersetChild = true ↔
      (∀ c ∈ cs, ¬ b ⊆ c.node) ∧ (∀ c ∈ cs, c.noSupersetChild = true) := by
  rw [TD.noSupersetChild, Bool.and_eq_true, noSupersetChildL_iff]
  simp only [List.all_eq_true, decide_eq_true_eq]

theorem bags_mk (b : Finset ℕ) (cs : List TD) :
    (TD.mk b cs).bags = b :: TD.bagsL cs := rfl

theorem mem_bagsL {b : Finset ℕ} : ∀ {l : List TD},
    b ∈ TD.bagsL l ↔ ∃ c ∈ l, b ∈ c.bags := by
  intro l
  induction l with
  | nil => simp [TD.bagsL]
  | cons c cs ih =>
    show b ∈ c.bags ++ TD.bagsL cs ↔ _
    rw [List.mem_append, ih]
    constructor
    · rintro (h | ⟨d, hd, hb⟩)
      · exact ⟨c, List.mem_cons_self c cs, h⟩
      · exact ⟨d, List.mem_cons_of_mem c hd, hb⟩
    · rintro ⟨d, hd, hb⟩
      rcases List.mem_cons.mp hd with rfl | hd2
      · exact Or.inl hb
      · exact Or.inr ⟨d, hd2, hb⟩

theorem sizeL_cons (c : TD) (cs : List TD) :
    TD.sizeL (c :: cs) = TD.size c + TD.sizeL cs := rfl

theorem sizeL_append (l1 l2 : List TD) :
    TD.sizeL (l1 ++ l2) = TD.sizeL l1 + TD.sizeL l2 := by
  induction l1 with
  | nil => simp [TD.sizeL]
  | cons c cs ih => simp [TD.sizeL, ih]; omega

theorem size_mk (b : Finset ℕ) (cs : List TD) :
    TD.size (TD.mk b cs) = 1 + TD.sizeL cs := rfl

theorem size_pos (t : TD) : 1 ≤ TD.size t := by
  cases t with
  | mk b cs => rw [size_mk]; omega

theorem size_eq_children (c : TD) : TD.size c = 1 + TD.sizeL c.children := by
  cases c with
  | mk b cs => rfl

theorem sizeL_shift (c : TD) (rest : List TD) :
    TD.sizeL (rest ++ c.children) + 1 = TD.sizeL (c :: rest) := by
  rw [sizeL_append, sizeL_cons, size_eq_children c]
  omega

theorem rscChildren_fuel :
    ∀ (n : ℕ) (bag : Finset ℕ) (ws : List TD) (m : ℕ),
      2 * TD.sizeL ws + 1 ≤ n → 2 * TD.sizeL ws + 1 ≤ m →
      rscChildren n bag ws = rscChildren m bag ws := by
  intro n
  induction n with
  | zero => intro bag ws m h _; omega
  | succ n ih =>
    intro bag ws m hn hm
    match ws, m with
    | [], m + 1 => rfl
    | [], 0 => omega
    | c :: rest, 0 => omega
    | c :: rest, m + 1 =>
      have hshift := sizeL_shift c rest
      have hsz := size_eq_children c
      have hcons : TD.sizeL (c :: rest) = TD.size c + TD.sizeL rest := sizeL_cons c rest
      by_cases hsub : c.node ⊆ bag
      · rw [rscChildren, rscChildren, if_pos hsub, if_pos hsub]
        exact ih bag (rest ++ c.children) m (by omega) (by omega)
      · rw [rscChildren, rscChildren, if_neg hsub, if_neg hsub]
        rw [ih c.node c.children m (by omega) (by omega),
          ih bag rest m (by omega) (by omega)]

theorem rscRun_nil (bag : Finset ℕ) : rscRun bag [] = [] := rfl

theorem rscRun_cons_subset {bag : Finset ℕ} {c : TD} {rest : List TD}
    (h : c.node ⊆ bag) :
    rscRun bag (c :: rest) = rscRun bag (rest ++ c.children) := by
  have hshift := sizeL_shift c rest
  have hcons : TD.sizeL (c :: rest) = TD.size c + TD.sizeL rest := sizeL_cons c rest
  rw [rscRun, rscRun,
    show 2 * TD.sizeL (c :: rest) + 1 = (2 * TD.sizeL (c :: rest)) + 1 from rfl,
    rscChildren, if_pos h]
  exact rscChildren_fuel _ _ _ _ (by omega) (by omega)

theorem rscRun_cons_keep {bag : Finset ℕ} {c : TD} {rest : List TD}
    (h : ¬ c.node ⊆ bag) :
    rscRun bag (c :: rest)
      = TD.mk c.node (rscRun c.node c.children) :: rscRun bag rest := by
  have hsz := size_eq_children c
  have hcons : TD.sizeL (c :: rest) = TD.size c + TD.sizeL rest := sizeL_cons c rest
  rw [rscRun,
    show 2 * TD.sizeL (c :: rest) + 1 = (2 * TD.sizeL (c :: rest)) + 1 from rfl,
    rscChildren, if_neg h, sizeL_cons]
  rw [show rscRun c.node c.children
      = rscChildren (2 * TD.sizeL c.children + 1) c.node c.children from rfl,
    show rscRun bag rest = rscChildren (2 * TD.sizeL rest + 1) bag rest from rfl]
  rw [rscChildren_fuel (2 * (TD.size c + TD.sizeL rest)) c.node c.children
      (2 * TD.sizeL c.children + 1) (by omega) (by omega),
    rscChildren_fuel (2 * (TD.size c + TD.sizeL rest)) bag rest
      (2 * TD.sizeL rest + 1) (by omega) (by omega)]

theorem remove_subset_children_eq (t : TD) :
    t.remove_subset_children = TD.mk t.node (rscRun t.node t.children) := rfl

theorem riOk_comp1 {c : TD} (h : c.riOk = true) :
    ∀ d ∈ c.children, d.union_of_bags ∩ c.node ⊆ d.node := by
  cases c with
  | mk b cs => exact (riOk_mk_iff.mp h).1

theorem riOk_comp2 {c : TD} (h : c.riOk = true) :
    List.Pairwise (fun x y => x.union_of_bags ∩ y.union_of_bags ⊆ c.node)
      c.children := by
  cases c with
  | mk b cs => exact (riOk_mk_iff.mp h).2.1

theorem riOk_comp3 {c : TD} (h : c.riOk = true) :
    ∀ d ∈ c.children, d.riOk = true := by
  cases c with
  | mk b cs => exact (riOk_mk_iff.mp h).2.2

theorem unionL_children_subset (c : TD) :
    TD.unionL c.children ⊆ c.union_of_bags := by
  cases c with
  | mk b cs => exact Finset.subset_union_right

theorem bagsL_append (l1 l2 : List TD) :
    TD.bagsL (l1 ++ l2) = TD.bagsL l1 ++ TD.bagsL l2 := by
  induction l1 with
  | nil => rfl
  | cons c cs ih =>
    show c.bags ++ TD.bagsL (cs ++ l2) = (c.bags ++ TD.bagsL cs) ++ TD.bagsL l2
    rw [ih, List.append_assoc]

theorem rscRun_main :
    ∀ (N : ℕ) (bag : Finset ℕ) (ws : List TD), TD.sizeL ws ≤ N →
      (∀ c ∈ ws, c.riOk = true) →
      (∀ c ∈ ws, c.union_of_bags ∩ bag ⊆ c.node) →
      List.Pairwise (fun c d => c.union_of_bags ∩ d.union_of_bags ⊆ bag) ws →
      (∀ r ∈ rscRun bag ws, r.riOk = true) ∧
      (∀ r ∈ rscRun bag ws, r.union_of_bags ∩ bag ⊆ r.node) ∧
      List.Pairwise (fun r s => r.union_of_bags ∩ s.union_of_bags ⊆ bag)
        (rscRun bag ws) ∧
      (∀ r ∈ rscRun bag ws, ¬ r.node ⊆ bag) ∧
      (∀ r ∈ rscRun bag ws, r.noSubsetChild = true) ∧
      (∀ r ∈ rscRun bag ws, r.union_of_bags ⊆ TD.unionL ws) ∧
      (∀ b2 ∈ TD.bagsL ws,
        (∃ b3 ∈ TD.bagsL (rscRun bag ws), b2 ⊆ b3) ∨ b2 ⊆ bag) := by
  intro N
  induction N with
  | zero =>
    intro bag ws hle h1 h2 h3
    match ws with
    | [] =>
      rw [rscRun_nil]
      refine ⟨?_, ?_, List.Pairwise.nil, ?_, ?_, ?_, ?_⟩ <;>
        first
        | exact fun r hr => absurd hr (List.not_mem_nil r)
        | exact fun b2 hb2 => absurd hb2 (by simp [TD.bagsL])
    | c :: rest =>
      exfalso
      have := size_pos c
      rw [sizeL_cons] at hle
      omega
  | succ N ih =>
    intro bag ws hle h1 h2 h3
    match ws with
    | [] =>
      rw [rscRun_nil]
      refine ⟨?_, ?_, List.Pairwise.nil, ?_, ?_, ?_, ?_⟩ <;>
        first
        | exact fun r hr => absurd hr (List.not_mem_nil r)
        | exact fun b2 hb2 => absurd hb2 (by simp [TD.bagsL])
    | c :: rest =>
      have hszc := size_eq_children c
      have hcons : TD.sizeL (c :: rest) = TD.size c + TD.sizeL rest :=
        sizeL_cons c rest
      have hric : c.riOk = true := h1 c (List.mem_cons_self c rest)
      have h2c : c.union_of_bags ∩ bag ⊆ c.node :=
        h2 c (List.mem_cons_self c rest)
      have h3head : ∀ d ∈ rest, c.union_of_bags ∩ d.union_of_bags ⊆ bag :=
        (List.pairwise_cons.mp h3).1
      have h3tail := (List.pairwise_cons.mp h3).2
      by_cases hsub : c.node ⊆ bag
      · -- the subset child is dropped and its children join the worklist
        rw [rscRun_cons_subset hsub]
        have hshift := sizeL_shift c rest
        have hH1 : ∀ d ∈ rest ++ c.children, d.riOk = true := by
          intro d hd
          rcases List.mem_append.mp hd with hd | hd
          · exact h1 d (List.mem_cons_of_mem c hd)
          · exact riOk_comp3 hric d hd
        have hH2 : ∀ d ∈ rest ++ c.children, d.union_of_bags ∩ bag ⊆ d.node := by
          intro d hd
          rcases List.mem_append.mp hd with hd | hd
          · exact h2 d (List.mem_cons_of_mem c hd)
          · intro x hx
            rcases Finset.mem_inter.mp hx with ⟨hxd, hxb⟩
            have hxc : x ∈ c.union_of_bags := child_subVars hd hxd
            have hxn : x ∈ c.node := h2c (Finset.mem_inter.mpr ⟨hxc, hxb⟩)
            exact riOk_comp1 hric d hd (Finset.mem_inter.mpr ⟨hxd, hxn⟩)
        have hH3 : List.Pairwise
            (fun x y => x.union_of_bags ∩ y.union_of_bags ⊆ bag)
            (rest ++ c.children) := by
          rw [List.pairwise_append]
          refine ⟨h3tail, ?_, ?_⟩
          · exact (riOk_comp2 hric).imp (fun h => h.trans hsub)
          · intro d hd e he
            intro x hx
            rcases Finset.mem_inter.mp hx with ⟨hxd, hxe⟩
            have hxc : x ∈ c.union_of_bags := child_subVars he hxe
            exact h3head d hd (Finset.mem_inter.mpr ⟨hxc, hxd⟩)
        obtain ⟨a, b, pw, d, e, f, g⟩ :=
          ih bag (rest ++ c.children) (by omega) hH1 hH2 hH3
        refine ⟨a, b, pw, d, e, ?_, ?_⟩
        · intro r hr
          refine (f r hr).trans ?_
          rw [unionL_append, unionL_cons]
          intro x hx
          rcases Finset.mem_union.mp hx with hx | hx
          · exact Finset.mem_union.mpr (Or.inr hx)
          · exact Finset.mem_union.mpr (Or.inl (unionL_children_subset c hx))
        · intro b2 hb2
          have hb2' : b2 ∈ TD.bags c ++ TD.bagsL rest := hb2
          have hbc : TD.bags c = c.node :: TD.bagsL c.children := by
            cases c with
            | mk b cs => rfl
          rcases List.mem_append.mp hb2' with hb | hb
          · rw [hbc] at hb
            rcases List.mem_cons.mp hb with rfl | hb
            · exact Or.inr hsub
            · have hmem : b2 ∈ TD.bagsL (rest ++ c.children) := by
                rw [bagsL_append]
                exact List.mem_append.mpr (Or.inr hb)
              exact g b2 hmem
          · have hmem : b2 ∈ TD.bagsL (rest ++ c.children) := by
              rw [bagsL_append]
              exact List.mem_append.mpr (Or.inl hb)
            exact g b2 hmem
      · -- the child is kept and recursively processed
        rw [rscRun_cons_keep hsub]
        obtain ⟨ia, ib, ipw, id2, ie, if2, ig⟩ :=
          ih c.node c.children (by omega) (riOk_comp3 hric) (riOk_comp1 hric)
            (riOk_comp2 hric)
        obtain ⟨ra, rb, rpw, rd, re, rf, rg⟩ :=
          ih bag rest (by omega)
            (fun d hd => h1 d (List.mem_cons_of_mem c hd))
            (fun d hd => h2 d (List.mem_cons_of_mem c hd))
            h3tail
        have hr0sub : (TD.mk c.node (rscRun c.node c.children)).union_of_bags
            ⊆ c.union_of_bags := by
          rw [subVars_mk]
          intro x hx
          rcases Finset.mem_union.mp hx with hx | hx
          · exact node_subset_subVars c hx
          · rcases mem_unionL.mp hx with ⟨r, hr, hxr⟩
            exact unionL_children_subset c (if2 r hr hxr)
        have hbagsres : TD.bagsL (TD.mk c.node (rscRun c.node c.children)
              :: rscRun bag rest)
            = (c.node :: TD.bagsL (rscRun c.node c.children))
              ++ TD.bagsL (rscRun bag rest) := rfl
        refine ⟨?_, ?_, ?_, ?_, ?_, ?_, ?_⟩
        · intro r hr
          rcases List.mem_cons.mp hr with rfl | hr
          · exact riOk_mk_iff.mpr ⟨ib, ipw, ia⟩
          · exact ra r hr
        · intro r hr
          rcases List.mem_cons.mp hr with rfl | hr
          · intro x hx
            rcases Finset.mem_inter.mp hx with ⟨hxr, hxb⟩
            exact h2c (Finset.mem_inter.mpr ⟨hr0sub hxr, hxb⟩)
          · exact rb r hr
        · refine List.Pairwise.cons ?_ rpw
          intro s hs x hx
          rcases Finset.mem_inter.mp hx with ⟨hx0, hxs⟩
          have hxc : x ∈ c.union_of_bags := hr0sub hx0
          have hxrest : x ∈ TD.unionL rest := rf s hs hxs
          rcases mem_unionL.mp hxrest with ⟨d, hd, hxd⟩
          exact h3head d hd (Finset.mem_inter.mpr ⟨hxc, hxd⟩)
        · intro r hr
          rcases List.mem_cons.mp hr with rfl | hr
          · exact hsub
          · exact rd r hr
        · intro r hr
          rcases List.mem_cons.mp hr with rfl | hr
          · exact noSubsetChild_mk_iff.mpr ⟨id2, ie⟩
          · exact re r hr
        · intro r hr
          rcases List.mem_cons.mp hr with rfl | hr
          · refine hr0sub.trans ?_
            rw [unionL_cons]
            exact Finset.subset_union_left
          · refine (rf r hr).trans ?_
            rw [unionL_cons]
            exact Finset.subset_union_right
        · intro b2 hb2
          have hb2' : b2 ∈ TD.bags c ++ TD.bagsL rest := hb2
          have hbc : TD.bags c = c.node :: TD.bagsL c.children := by
            cases c with
            | mk b cs => rfl
          rcases List.mem_append.mp hb2' with hb | hb
          · rw [hbc] at hb
            rcases List.mem_cons.mp hb with rfl | hb
            · refine Or.inl ⟨c.node, ?_, Finset.Subset.refl _⟩
              rw [hbagsres]
              exact List.mem_append.mpr (Or.inl (List.mem_cons_self _ _))
            · rcases ig b2 hb with ⟨b3, hb3, hsub2⟩ | hsub2
              · refine Or.inl ⟨b3, ?_, hsub2⟩
                rw [hbagsres]
                exact List.mem_append.mpr (Or.inl (List.mem_cons_of_mem _ hb3))
              · refine Or.inl ⟨c.node, ?_, hsub2⟩
                rw [hbagsres]
                exact List.mem_append.mpr (Or.inl (List.mem_cons_self _ _))
          · rcases rg b2 hb with ⟨b3, hb3, hsub2⟩ | hsub2
            · refine Or.inl ⟨b3, ?_, hsub2⟩
              rw [hbagsres]
              exact List.mem_append.mpr (Or.inr hb3)
            · exact Or.inr hsub2

theorem rsc_facts {t : TD} (h : t.riOk = true) :
    t.remove_subset_children.riOk = true ∧
    t.remove_subset_children.noSubsetChild = true ∧
    t.remove_subset_children.node = t.node ∧
    t.remove_subset_children.union_of_bags ⊆ t.union_of_bags ∧
    (∀ b2 ∈ t.bags, ∃ b3 ∈ t.remove_subset_children.bags, b2 ⊆ b3) := by
  cases t with
  | mk b cs =>
    rcases riOk_mk_iff.mp h with ⟨hc1, hc2, hc3⟩
    obtain ⟨ma, mb, mpw, md, me, mf, mg⟩ :=
      rscRun_main (TD.sizeL cs) b cs (le_refl _) hc3 hc1 hc2
    rw [remove_subset_children_eq]
    refine ⟨riOk_mk_iff.mpr ⟨mb, mpw, ma⟩, noSubsetChild_mk_iff.mpr ⟨md, me⟩,
      rfl, ?_, ?_⟩
    · show b ∪ TD.unionL (rscRun b cs) ⊆ b ∪ TD.unionL cs
      intro x hx
      rcases Finset.mem_union.mp hx with hx | hx
      · exact Finset.mem_union.mpr (Or.inl hx)
      · rcases mem_unionL.mp hx with ⟨r, hr, hxr⟩
        exact Finset.mem_union.mpr (Or.inr (mf r hr hxr))
    · intro b2 hb2
      rcases List.mem_cons.mp hb2 with rfl | hb2
      · exact ⟨b2, List.mem_cons_self _ _, Finset.Subset.refl _⟩
      · rcases mg b2 hb2 with ⟨b3, hb3, hsub⟩ | hsub
        · exact ⟨b3, List.mem_cons_of_mem _ hb3, hsub⟩
        · exact ⟨b, List.mem_cons_self _ _, hsub⟩

theorem extractSuperset_none {b : Finset ℕ} : ∀ {cs : List TD},
    extractSuperset b cs = none ↔ ∀ c ∈ cs, ¬ b ⊆ c.node := by
  intro cs
  induction cs with
  | nil => simp [extractSuperset]
  | cons c rest ih =>
    rw [extractSuperset]
    by_cases hb : b ⊆ c.node
    · rw [if_pos hb]
      simp only [List.mem_cons]
      constructor
      · intro h; cases h
      · intro h
        exact absurd hb (h c (Or.inl rfl))
    · rw [if_neg hb]
      match hrec : extractSuperset b rest with
      | some p =>
        simp only [List.mem_cons]
        constructor
        · intro h; cases h
        · intro h
          have := ih.mpr (fun d hd => h d (Or.inr hd))
          rw [hrec] at this; cases this
      | none =>
        simp only [List.mem_cons]
        constructor
        · intro _ d hd
          rcases hd with rfl | hd
          · exact hb
          · exact (ih.mp hrec) d hd
        · intro _; trivial

theorem extractSuperset_some_facts {b : Finset ℕ} : ∀ {cs : List TD} {s : TD}
    {os : List TD}, extractSuperset b cs = some (s, os) →
    b ⊆ s.node ∧ cs.Perm (s :: os) := by
  intro cs
  induction cs with
  | nil => intro s os h; cases h
  | cons c rest ih =>
    intro s os h
    rw [extractSuperset] at h
    by_cases hb : b ⊆ c.node
    · rw [if_pos hb] at h
      cases h
      exact ⟨hb, List.Perm.refl _⟩
    · rw [if_neg hb] at h
      match hrec : extractSuperset b rest with
      | some p =>
        rw [hrec] at h
        cases h
        rcases ih hrec with ⟨h1, h2⟩
        refine ⟨h1, ?_⟩
        have hp1 : (c :: rest).Perm (c :: p.1 :: p.2) := h2.cons c
        exact hp1.trans (List.Perm.swap p.1 c p.2)
      | none => rw [hrec] at h; cases h

theorem sizeL_eq_sum (l : List TD) : TD.sizeL l = (l.map TD.size).sum := by
  induction l with
  | nil => rfl
  | cons c cs ih => rw [sizeL_cons, ih]; simp

theorem sizeL_perm {l1 l2 : List TD} (h : l1.Perm l2) :
    TD.sizeL l1 = TD.sizeL l2 := by
  rw [sizeL_eq_sum, sizeL_eq_sum]
  exact (h.map TD.size).sum_eq

theorem size_le_sizeL_of_mem {c : TD} {l : List TD} (h : c ∈ l) :
    TD.size c ≤ TD.sizeL l := by
  induction l with
  | nil => cases h
  | cons d ds ih =>
    rw [sizeL_cons]
    rcases List.mem_cons.mp h with rfl | h2
    · omega
    · have := ih h2; omega

theorem unionL_perm {l1 l2 : List TD} (h : l1.Perm l2) :
    TD.unionL l1 = TD.unionL l2 := by
  ext x
  rw [mem_unionL, mem_unionL]
  constructor
  · rintro ⟨c, hc, hx⟩; exact ⟨c, h.mem_iff.mp hc, hx⟩
  · rintro ⟨c, hc, hx⟩; exact ⟨c, h.mem_iff.mpr hc, hx⟩

theorem rotate_size {b : Finset ℕ} {cs : List TD} {s : TD} {os : List TD}
    (h : extractSuperset b cs = some (s, os)) :
    TD.size (TD.mk s.node (s.children ++ os)) + 1 = TD.size (TD.mk b cs) := by
  have hperm := (extractSuperset_some_facts h).2
  rw [size_mk, size_mk, sizeL_append, sizeL_perm hperm, sizeL_cons,
    size_eq_children s]
  omega

theorem mscGo_fuel : ∀ (n : ℕ) (t : TD) (m : ℕ),
    TD.size t ≤ n → TD.size t ≤ m → mscGo n t = mscGo m t := by
  intro n
  induction n with
  | zero => intro t m h _; have := size_pos t; omega
  | succ n ih =>
    intro t m hn hm
    match t, m with
    | t, 0 => have := size_pos t; omega
    | TD.mk b cs, m + 1 =>
      rw [mscGo, mscGo]
      match hext : extractSuperset (TD.mk b cs).node (TD.mk b cs).children with
      | some p =>
        have hext2 : extractSuperset b cs = some (p.1, p.2) := hext
        have hsz := rotate_size hext2
        exact ih _ m (by omega) (by omega)
      | none =>
        show TD.mk b (cs.map (mscGo n)) = TD.mk b (cs.map (mscGo m))
        congr 1
        refine List.map_congr_left (fun c hc => ?_)
        have h1 : TD.size c ≤ TD.sizeL cs := size_le_sizeL_of_mem hc
        rw [size_mk] at hn hm
        exact ih c m (by omega) (by omega)

theorem msc_rot {t s : TD} {os : List TD}
    (h : extractSuperset t.node t.children = some (s, os)) :
    t.move_superset_children
      = (TD.mk s.node (s.children ++ os)).move_superset_children := by
  cases t with
  | mk b cs =>
    have h2 : extractSuperset b cs = some (s, os) := h
    have hsz := rotate_size h2
    rw [TD.move_superset_children, TD.move_superset_children]
    rw [show TD.size (TD.mk b cs) = (TD.size (TD.mk b cs) - 1) + 1 from by
      have := size_pos (TD.mk b cs); omega]
    rw [mscGo]
    rw [show extractSuperset (TD.mk b cs).node (TD.mk b cs).children
        = some (s, os) from h]
    show mscGo (TD.size (TD.mk b cs) - 1) (TD.mk s.node (s.children ++ os))
      = mscGo (TD.size (TD.mk s.node (s.children ++ os)))
          (TD.mk s.node (s.children ++ os))
    have hpos := size_pos (TD.mk b cs)
    exact mscGo_fuel _ _ _ (by omega) (le_refl _)

theorem msc_norot {t : TD}
    (h : extractSuperset t.node t.children = none) :
    t.move_superset_children
      = TD.mk t.node (t.children.map TD.move_superset_children) := by
  cases t with
  | mk b cs =>
    rw [TD.move_superset_children]
    rw [show TD.size (TD.mk b cs) = (TD.size (TD.mk b cs) - 1) + 1 from by
      have := size_pos (TD.mk b cs); omega]
    rw [mscGo]
    rw [show extractSuperset (TD.mk b cs).node (TD.mk b cs).children = none from h]
    show TD.mk b (cs.map (mscGo (TD.size (TD.mk b cs) - 1))) = _
    congr 1
    refine List.map_congr_left (fun c hc => ?_)
    have h1 : TD.size c ≤ TD.sizeL cs := size_le_sizeL_of_mem hc
    have h2 := size_mk b cs
    exact mscGo_fuel _ _ _ (by omega) (le_refl _)

theorem nsc_comp1 {t : TD} (h : t.noSubsetChild = true) :
    ∀ c ∈ t.children, ¬ c.node ⊆ t.node := by
  cases t with
  | mk b cs => exact (noSubsetChild_mk_iff.mp h).1

theorem nsc_comp2 {t : TD} (h : t.noSubsetChild = true) :
    ∀ c ∈ t.children, c.noSubsetChild = true := by
  cases t with
  | mk b cs => exact (noSubsetChild_mk_iff.mp h).2

theorem subVars_eq (t : TD) :
    t.union_of_bags = t.node ∪ TD.unionL t.children := by
  cases t with
  | mk b cs => rfl

theorem bags_eq (t : TD) : t.bags = t.node :: TD.bagsL t.children := by
  cases t with
  | mk b cs => rfl

theorem unionL_map_congr {f : TD → TD} : ∀ {l : List TD},
    (∀ c ∈ l, (f c).union_of_bags = c.union_of_bags) →
    TD.unionL (l.map f) = TD.unionL l := by
  intro l
  induction l with
  | nil => intro _; rfl
  | cons c cs ih =>
    intro h
    rw [List.map_cons, unionL_cons, unionL_cons, h c (List.mem_cons_self c cs),
      ih (fun d hd => h d (List.mem_cons_of_mem c hd))]

theorem msc_main : ∀ (N : ℕ) (t : TD), TD.size t ≤ N →
    t.riOk = true → t.noSubsetChild = true →
    t.move_superset_children.riOk = true ∧
    t.move_superset_children.noSubsetChild = true ∧
    t.move_superset_children.noSupersetChild = true ∧
    t.move_superset_children.union_of_bags = t.union_of_bags ∧
    t.node ⊆ t.move_superset_children.node ∧
    (∀ b2 ∈ t.bags, ∃ b3 ∈ t.move_superset_children.bags, b2 ⊆ b3) := by
  intro N
  induction N with
  | zero => intro t hle _ _; have := size_pos t; omega
  | succ N ih =>
    intro t hle hri hnsc
    cases t with
    | mk b cs =>
      have hA := (riOk_mk_iff.mp hri).1
      have hB := (riOk_mk_iff.mp hri).2.1
      have hC := (riOk_mk_iff.mp hri).2.2
      have hD := (noSubsetChild_mk_iff.mp hnsc).1
      have hE := (noSubsetChild_mk_iff.mp hnsc).2
      match hext : extractSuperset (TD.mk b cs).node (TD.mk b cs).children with
      | some (s, os) =>
        have hext' : extractSuperset b cs = some (s, os) := hext
        obtain ⟨hbs, hperm⟩ := extractSuperset_some_facts hext'
        have hs_mem : s ∈ cs := hperm.mem_iff.mpr (List.mem_cons_self s os)
        have hos_mem : ∀ o ∈ os, o ∈ cs :=
          fun o ho => hperm.mem_iff.mpr (List.mem_cons_of_mem s ho)
        have hsymm0 : ∀ {x y : TD},
            x.union_of_bags ∩ y.union_of_bags ⊆ b →
            y.union_of_bags ∩ x.union_of_bags ⊆ b := by
          intro x y h
          rw [Finset.inter_comm]
          exact h
        have hpw : List.Pairwise
            (fun c d => c.union_of_bags ∩ d.union_of_bags ⊆ b) (s :: os) :=
          (List.Perm.pairwise_iff (fun h => hsymm0 h) hperm).mp hB
        obtain ⟨hso, hpos⟩ := List.pairwise_cons.mp hpw
        have hsri : s.riOk = true := hC s hs_mem
        have hsnsc : s.noSubsetChild = true := hE s hs_mem
        have hAs := riOk_comp1 hsri
        have hBs := riOk_comp2 hsri
        have hCs := riOk_comp3 hsri
        have hDs := nsc_comp1 hsnsc
        have hEs := nsc_comp2 hsnsc
        have hsz := rotate_size hext'
        have hri' : (TD.mk s.node (s.children ++ os)).riOk = true := by
          refine riOk_mk_iff.mpr ⟨?_, ?_, ?_⟩
          · intro c hc
            rcases List.mem_append.mp hc with hc | hc
            · exact hAs c hc
            · intro x hx
              rcases Finset.mem_inter.mp hx with ⟨hxc, hxs⟩
              have hxb : x ∈ b := hso c hc (Finset.mem_inter.mpr
                ⟨node_subset_subVars s hxs, hxc⟩)
              exact hA c (hos_mem c hc) (Finset.mem_inter.mpr ⟨hxc, hxb⟩)
          · rw [List.pairwise_append]
            refine ⟨hBs, ?_, ?_⟩
            · refine hpos.imp ?_
              intro x y hxy
              exact hxy.trans hbs
            · intro d hd o ho
              intro x hx
              rcases Finset.mem_inter.mp hx with ⟨hxd, hxo⟩
              have hxs : x ∈ s.union_of_bags := child_subVars hd hxd
              have hxb : x ∈ b := hso o ho (Finset.mem_inter.mpr ⟨hxs, hxo⟩)
              exact hbs hxb
          · intro c hc
            rcases List.mem_append.mp hc with hc | hc
            · exact hCs c hc
            · exact hC c (hos_mem c hc)
        have hnsc' : (TD.mk s.node (s.children ++ os)).noSubsetChild = true := by
          refine noSubsetChild_mk_iff.mpr ⟨?_, ?_⟩
          · intro c hc
            rcases List.mem_append.mp hc with hc | hc
            · exact hDs c hc
            · intro hsub
              apply hD c (hos_mem c hc)
              intro x hx
              exact hso c hc (Finset.mem_inter.mpr
                ⟨node_subset_subVars s (hsub hx), node_subset_subVars c hx⟩)
          · intro c hc
            rcases List.mem_append.mp hc with hc | hc
            · exact hEs c hc
            · exact hE c (hos_mem c hc)
        obtain ⟨m1, m2, m3, m4, m5, m6⟩ :=
          ih (TD.mk s.node (s.children ++ os)) (by omega) hri' hnsc'
        have hmsc : (TD.mk b cs).move_superset_children
            = (TD.mk s.node (s.children ++ os)).move_superset_children :=
          msc_rot hext
        have huu : (TD.mk s.node (s.children ++ os)).union_of_bags
            = (TD.mk b cs).union_of_bags := by
          rw [subVars_mk, subVars_mk, unionL_append, unionL_perm hperm,
            unionL_cons, subVars_eq s]
          ext x
          simp only [Finset.mem_union]
          constructor
          · rintro (hx | hx | hx)
            · exact Or.inr (Or.inl (Or.inl hx))
            · exact Or.inr (Or.inl (Or.inr hx))
            · exact Or.inr (Or.inr hx)
          · rintro (hx | (hx | hx) | hx)
            · exact Or.inl (hbs hx)
            · exact Or.inl hx
            · exact Or.inr (Or.inl hx)
            · exact Or.inr (Or.inr hx)
        rw [hmsc]
        refine ⟨m1, m2, m3, ?_, ?_, ?_⟩
        · rw [m4, huu]
        · exact fun x hx => m5 (hbs hx)
        · intro b2 hb2
          rw [bags_mk] at hb2
          rcases List.mem_cons.mp hb2 with rfl | hb2
          · obtain ⟨b3, hb3, hsb⟩ := m6 s.node (by
              rw [bags_mk]
              exact List.mem_cons_self _ _)
            exact ⟨b3, hb3, hbs.trans hsb⟩
          · rcases mem_bagsL.mp hb2 with ⟨c, hc, hb2c⟩
            have hc' : c ∈ s :: os := hperm.mem_iff.mp hc
            rcases List.mem_cons.mp hc' with hcs | hco
            · rw [hcs, bags_eq s] at hb2c
              rcases List.mem_cons.mp hb2c with rfl | hb2s
              · exact m6 s.node (by
                  rw [bags_mk]
                  exact List.mem_cons_self _ _)
              · refine m6 b2 ?_
                rw [bags_mk, bagsL_append]
                exact List.mem_cons_of_mem _ (List.mem_append_left _ hb2s)
            · refine m6 b2 ?_
              rw [bags_mk, bagsL_append]
              refine List.mem_cons_of_mem _ (List.mem_append_right _ ?_)
              exact mem_bagsL.mpr ⟨c, hco, hb2c⟩
      | none =>
        have hno : ∀ c ∈ cs, ¬ b ⊆ c.node := extractSuperset_none.mp hext
        have hsize : ∀ c ∈ cs, TD.size c ≤ N := by
          intro c hc
          have h1 := size_le_sizeL_of_mem hc
          have h2 := size_mk b cs
          omega
        have hih : ∀ c ∈ cs,
            (TD.move_superset_children c).riOk = true ∧
            (TD.move_superset_children c).noSubsetChild = true ∧
            (TD.move_superset_children c).noSupersetChild = true ∧
            (TD.move_superset_children c).union_of_bags = c.union_of_bags ∧
            c.node ⊆ (TD.move_superset_children c).node ∧
            (∀ b2 ∈ c.bags, ∃ b3 ∈ (TD.move_superset_children c).bags,
              b2 ⊆ b3) :=
          fun c hc => ih c (hsize c hc) (hC c hc) (hE c hc)
        have hmsc : (TD.mk b cs).move_superset_children
            = TD.mk b (cs.map TD.move_superset_children) := msc_norot hext
        rw [hmsc]
        refine ⟨?_, ?_, ?_, ?_, ?_, ?_⟩
        · refine riOk_mk_iff.mpr ⟨?_, ?_, ?_⟩
          · intro c' hc'
            rcases List.mem_map.mp hc' with ⟨c, hc, rfl⟩
            obtain ⟨_, _, _, hu, hnode, _⟩ := hih c hc
            rw [hu]
            exact (hA c hc).trans hnode
          · rw [List.pairwise_map]
            refine hB.imp_of_mem ?_
            intro x y hx hy hxy
            obtain ⟨_, _, _, hux, _, _⟩ := hih x hx
            obtain ⟨_, _, _, huy, _, _⟩ := hih y hy
            rw [hux, huy]
            exact hxy
          · intro c' hc'
            rcases List.mem_map.mp hc' with ⟨c, hc, rfl⟩
            exact (hih c hc).1
        · refine noSubsetChild_mk_iff.mpr ⟨?_, ?_⟩
          · intro c' hc'
            rcases List.mem_map.mp hc' with ⟨c, hc, rfl⟩
            obtain ⟨_, _, _, _, hnode, _⟩ := hih c hc
            intro hsub
            exact hD c hc (fun x hx => hsub (hnode hx))
          · intro c' hc'
            rcases List.mem_map.mp hc' with ⟨c, hc, rfl⟩
            exact (hih c hc).2.1
        · refine noSupersetChild_mk_iff.mpr ⟨?_, ?_⟩
          · intro c' hc'
            rcases List.mem_map.mp hc' with ⟨c, hc, rfl⟩
            obtain ⟨_, _, _, hu, _, _⟩ := hih c hc
            intro hsub
            apply hno c hc
            intro x hx
            have hxu : x ∈ c.union_of_bags := by
              rw [← hu]
              exact node_subset_subVars _ (hsub hx)
            exact hA c hc (Finset.mem_inter.mpr ⟨hxu, hx⟩)
          · intro c' hc'
            rcases List.mem_map.mp hc' with ⟨c, hc, rfl⟩
            exact (hih c hc).2.2.1
        · rw [subVars_mk, subVars_mk]
          congr 1
          exact unionL_map_congr (fun c hc => (hih c hc).2.2.2.1)
        · intro x hx
          exact hx
        · intro b2 hb2
          rw [bags_mk] at hb2
          rcases List.mem_cons.mp hb2 with rfl | hb2
          · exact ⟨b2, by rw [bags_mk]; exact List.mem_cons_self _ _,
              Finset.Subset.refl b2⟩
          · rcases mem_bagsL.mp hb2 with ⟨c, hc, hb2c⟩
            obtain ⟨_, _, _, _, _, hcov⟩ := hih c hc
            obtain ⟨b3, hb3, hsb⟩ := hcov b2 hb2c
            refine ⟨b3, ?_, hsb⟩
            rw [bags_mk]
            refine List.mem_cons_of_mem _ ?_
            exact mem_bagsL.mpr
              ⟨TD.move_superset_children c, List.mem_map_of_mem _ hc, hb3⟩

/-- C6: for every tree decomposition satisfying the running-intersection
(tree-decomposition) property, running remove_subset_children and then
move_superset_children yields a tree that still satisfies the property,
in which every original bag is contained in some remaining bag (so vertex
and edge coverage are preserved), no child bag is a subset of its parent's
bag, and no parent bag is a subset of a child's bag. -/
theorem C6_transforms_preserve_td (t : TD) (hri : t.riOk = true) :
    t.remove_subset_children.move_superset_children.riOk = true ∧
    t.remove_subset_children.move_superset_children.noSubsetChild = true ∧
    t.remove_subset_children.move_superset_children.noSupersetChild = true ∧
    (∀ b2 ∈ t.bags,
      ∃ b3 ∈ t.remove_subset_children.move_superset_children.bags, b2 ⊆ b3) := by
  obtain ⟨r1, r2, r3, r4, r5⟩ := rsc_facts hri
  obtain ⟨m1, m2, m3, m4, m5, m6⟩ :=
    msc_main (TD.size t.remove_subset_children) t.remove_subset_children
      (le_refl _) r1 r2
  refine ⟨m1, m2, m3, ?_⟩
  intro b2 hb2
  obtain ⟨b3, hb3, hsb⟩ := r5 b2 hb2
  obtain ⟨b4, hb4, hsb2⟩ := m6 b3 hb3
  exact ⟨b4, hb4, hsb.trans hsb2⟩

theorem C6_witness :
    (TD.mk {1} [TD.mk {1, 2} []]).riOk = true ∧
    ((TD.mk {1} [TD.mk {1, 2} []]).remove_subset_children.move_superset_children.riOk
        = true ∧
      (TD.mk {1} [TD.mk {1, 2} []]).remove_subset_children.move_superset_children.noSubsetChild
        = true ∧
      (TD.mk {1} [TD.mk {1, 2} []]).remove_subset_children.move_superset_children.noSupersetChild
        = true ∧
      (∀ b2 ∈ (TD.mk {1} [TD.mk {1, 2} []]).bags,
        ∃ b3 ∈
          (TD.mk {1} [TD.mk {1, 2} []]).remove_subset_children.move_superset_children.bags,
          b2 ⊆ b3)) :=
  ⟨by decide, C6_transforms_preserve_td (TD.mk {1} [TD.mk {1, 2} []]) (by decide)⟩

/-- C1: at the failing input, a formula whose clause list repeats a clause,
the claimed key correctness property does not hold of the code.  exTD1 is a
genuine tree decomposition of the formula's primal graph (it satisfies the
running-intersection property and its single bag covers every clause), yet
after compute the minimum of cost over the root table's rows is 1 while the
optimum total falsified weight over complete assignments is 2, and the row
for assignment 1=false has cost 1 while every complete assignment consistent
with it falsifies total weight 2: the frozenset of falsified clauses merges
the two identical weight-1 clauses, so their weight is counted once. -/
theorem C1_duplicate_clause_undercount :
    exTD1.riOk = true ∧
    exFormulaC1.clauses.all (fun c => c.induced_by {1}) = true ∧
    (Table.build exFormulaC1 exTD1).compute.map
      (fun t => (rootMinCost t,
        t.rows.map (fun r => (r.assignment.vars, r.assignment.bits, r.cost))))
      = Except.ok (some 1, [([1], 0, 1), ([1], 1, 3)]) ∧
    specOptCost exFormulaC1 = some 2 ∧
    specFalsifiedWeight exFormulaC1 ⟨[1], 0⟩ = 2 := by
  refine ⟨by decide, by decide, by decide, by decide, by decide⟩
